import Mathlib

/-!
Verification of the EthTrade trading engine.

This file gives a shallow embedding of the two core components of the
repository and proves properties of them:

* SimulationPortfolio (src/portfolio/simulation_portfolio.py): a simulated
  brokerage account holding a cash balance, an asset balance, a fee, and an
  open-order book keyed by order id.  Its step function matches every open
  order against an incoming price tick.

* GridStrategy (src/ethtrade/strategy/grid_strategy.py): a grid strategy
  driving a chain of price levels; it reacts to fills through callbacks and
  migrates a current-level pointer as the price crosses level boundaries.

Modelling conventions:

* Python floats are modelled as exact rationals.
* Python dicts (the order book and the order-id-to-level map) are modelled as
  insertion-ordered association lists with unique keys; dict deletion removes
  the unique matching key, dict assignment replaces in place when the key is
  present and appends otherwise, exactly like the insertion-ordered Python
  dict.
* The uuid4 order ids are modelled by a fresh-id counter: the only property
  of uuid4 the program relies on is that new ids are distinct from existing
  ones.
* Fill handlers are Python callables.  At the portfolio layer they are kept
  as inert data (the unit tests pass lambdas that do not touch the
  portfolio); the grid machine interprets the two concrete handlers of the
  strategy (buy callback and sell callback) explicitly.
-/

namespace EthTrade

/-! ## Association-list primitives (Python dict operations) -/

/-- Lookup in an insertion-ordered association list (Python dict access). -/
def alookup {β : Type} : List (ℕ × β) → ℕ → Option β
  | [], _ => none
  | (a, b) :: t, k => if a = k then some b else alookup t k

/-- Deletion of a key (Python del d[k]: keys are unique, so removing the
first matching entry removes the key). -/
def aerase {β : Type} : List (ℕ × β) → ℕ → List (ℕ × β)
  | [], _ => []
  | (a, b) :: t, k => if a = k then t else (a, b) :: aerase t k

/-- Python dict assignment d[k] = v: replaces the entry in place when the key
is present, appends at the end otherwise. -/
def aset {β : Type} : List (ℕ × β) → ℕ → β → List (ℕ × β)
  | [], k, v => [(k, v)]
  | (a, b) :: t, k, v => if a = k then (k, v) :: t else (a, b) :: aset t k v

/-- The keys of an association list, in insertion order (Python list(d)). -/
def akeys {β : Type} (l : List (ℕ × β)) : List ℕ :=
  l.map Prod.fst

/-! ## Order model (src/order.py) -/

/-- The transaction fee of a SimulationPortfolio is Union[int, float] in the
source: an int is subtracted flat from a notional, a float is a proportional
rate. -/
inductive Fee where
  | flat (n : ℤ)
  | rate (f : ℚ)
deriving DecidableEq, Repr

/-- Fill handlers appearing in the program: the grid strategy passes its buy
callback or its sell callback; the unit tests pass inert lambdas (noop). -/
inductive Handler where
  | buyCb
  | sellCb
  | noop
deriving DecidableEq, Repr

/-- The order class hierarchy of src/order.py flattened into one inductive:
side (buy/sell) times execution kind (market/limit/stop).  Buy orders carry a
currency budget, sell orders an asset quantity; every order embeds its own id
and its fill handler, as the Python dataclasses do. -/
inductive Order where
  | marketBuy (order_id : ℕ) (handler : Handler) (budget : ℚ)
  | limitBuy (order_id : ℕ) (handler : Handler) (budget : ℚ) (limit_price : ℚ)
  | stopBuy (order_id : ℕ) (handler : Handler) (budget : ℚ)
      (stop_price : ℚ) (limit_price : ℚ)
  | marketSell (order_id : ℕ) (handler : Handler) (quantity : ℚ)
  | limitSell (order_id : ℕ) (handler : Handler) (quantity : ℚ) (limit_price : ℚ)
  | stopSell (order_id : ℕ) (handler : Handler) (quantity : ℚ)
      (stop_price : ℚ) (limit_price : ℚ)
deriving DecidableEq, Repr

/-- The order_id attribute. -/
def Order.oid : Order → ℕ
  | .marketBuy i _ _ => i
  | .limitBuy i _ _ _ => i
  | .stopBuy i _ _ _ _ => i
  | .marketSell i _ _ => i
  | .limitSell i _ _ _ => i
  | .stopSell i _ _ _ _ => i

/-- The fill_handler attribute. -/
def Order.fillHandler : Order → Handler
  | .marketBuy _ h _ => h
  | .limitBuy _ h _ _ => h
  | .stopBuy _ h _ _ _ => h
  | .marketSell _ h _ => h
  | .limitSell _ h _ _ => h
  | .stopSell _ h _ _ _ => h

/-- isinstance(order, BuyOrder). -/
def Order.isBuy : Order → Bool
  | .marketBuy .. | .limitBuy .. | .stopBuy .. => true
  | _ => false

/-- isinstance(order, SellOrder). -/
def Order.isSell : Order → Bool
  | .marketSell .. | .limitSell .. | .stopSell .. => true
  | _ => false

/-- The budget attribute; sell orders have none (a Python AttributeError). -/
def Order.budgetAttr : Order → Option ℚ
  | .marketBuy _ _ b => some b
  | .limitBuy _ _ b _ => some b
  | .stopBuy _ _ b _ _ => some b
  | _ => none

/-- The quantity attribute; buy orders have none (a Python AttributeError). -/
def Order.quantityAttr : Order → Option ℚ
  | .marketSell _ _ q => some q
  | .limitSell _ _ q _ => some q
  | .stopSell _ _ q _ _ => some q
  | _ => none

/-- FilledOrder from src/order.py: the immutable record of a fill. -/
structure FilledOrder where
  order : Order
  price : ℚ
  quantity : ℚ
deriving DecidableEq, Repr

/-! ## SimulationPortfolio (src/portfolio/simulation_portfolio.py) -/

/-- The state of a SimulationPortfolio: cash budget, asset quantity, fee,
open-order book (dict keyed by order id), the recorded fills (with the tick
index at which each happened) and the tick index.  next_id is the fresh-id
counter standing in for uuid4. -/
structure PortState where
  budget : ℚ
  quantity : ℚ
  transaction_fee : Fee
  order_book : List (ℕ × Order)
  order_fill : List (ℕ × FilledOrder)
  index : ℕ
  next_id : ℕ
deriving DecidableEq, Repr

/-- SimulationPortfolio.\_apply\_fee. -/
def applyFee (fee : Fee) (budget : ℚ) : ℚ :=
  match fee with
  | .flat n => budget - n
  | .rate f => budget * (1 - f)

/-- The balance-mutation part of SimulationPortfolio.\_fill\_order: computes
the executed quantity and price, applies the fee (subtracted from the
notional on buys, from the proceeds on sells) and mutates cash and asset
balances.  The handler invocation that \_fill\_order performs next is done by
the caller, since the portfolio model keeps handlers inert and the grid model
interprets them. -/
def fillCalc (price : ℚ) (order : Order) (st : PortState) : FilledOrder × PortState :=
  match order with
  | .marketBuy _ _ b | .limitBuy _ _ b _ | .stopBuy _ _ b _ _ =>
      let bfee := applyFee st.transaction_fee b
      let q := bfee / price
      (⟨order, price, q⟩,
        { st with budget := st.budget - b, quantity := st.quantity + q })
  | .marketSell _ _ q | .limitSell _ _ q _ | .stopSell _ _ q _ _ =>
      let bfee := applyFee st.transaction_fee (q * price)
      (⟨order, price, q⟩,
        { st with quantity := st.quantity - q, budget := st.budget + bfee })

/-- SimulationPortfolio.place\_market\_buy\_order: creates the order under a
fresh id and inserts it into the book; no validation is performed. -/
def place_market_buy_order (budget : ℚ) (h : Handler) (st : PortState) :
    ℕ × PortState :=
  let oid := st.next_id
  (oid, { st with
    order_book := st.order_book ++ [(oid, Order.marketBuy oid h budget)],
    next_id := oid + 1 })

/-- SimulationPortfolio.place\_limit\_buy\_order. -/
def place_limit_buy_order (limit_price budget : ℚ) (h : Handler)
    (st : PortState) : ℕ × PortState :=
  let oid := st.next_id
  (oid, { st with
    order_book := st.order_book ++ [(oid, Order.limitBuy oid h budget limit_price)],
    next_id := oid + 1 })

/-- SimulationPortfolio.place\_stop\_buy\_order. -/
def place_stop_buy_order (stop_price limit_price budget : ℚ) (h : Handler)
    (st : PortState) : ℕ × PortState :=
  let oid := st.next_id
  (oid, { st with
    order_book :=
      st.order_book ++ [(oid, Order.stopBuy oid h budget stop_price limit_price)],
    next_id := oid + 1 })

/-- SimulationPortfolio.place\_market\_sell\_order. -/
def place_market_sell_order (quantity : ℚ) (h : Handler) (st : PortState) :
    ℕ × PortState :=
  let oid := st.next_id
  (oid, { st with
    order_book := st.order_book ++ [(oid, Order.marketSell oid h quantity)],
    next_id := oid + 1 })

/-- SimulationPortfolio.place\_limit\_sell\_order. -/
def place_limit_sell_order (limit_price quantity : ℚ) (h : Handler)
    (st : PortState) : ℕ × PortState :=
  let oid := st.next_id
  (oid, { st with
    order_book := st.order_book ++ [(oid, Order.limitSell oid h quantity limit_price)],
    next_id := oid + 1 })

/-- SimulationPortfolio.place\_stop\_sell\_order. -/
def place_stop_sell_order (stop_price limit_price quantity : ℚ) (h : Handler)
    (st : PortState) : ℕ × PortState :=
  let oid := st.next_id
  (oid, { st with
    order_book :=
      st.order_book ++ [(oid, Order.stopSell oid h quantity stop_price limit_price)],
    next_id := oid + 1 })

/-- SimulationPortfolio.cancel\_order: deletes the order if the id is a key
of the book and silently does nothing otherwise.  The return type records
that the source has no failure path here. -/
def cancel_order (order_id : ℕ) (st : PortState) : PortState :=
  if (alookup st.order_book order_id).isSome then
    { st with order_book := aerase st.order_book order_id }
  else st

/-- One portfolio-side fill, as performed inside SimulationPortfolio.step for
a matched order: run \_fill\_order (balance mutation), delete the id from the
book, record the FilledOrder under the current tick index. -/
def fillApply (price : ℚ) (oid : ℕ) (order : Order) (st : PortState) : PortState :=
  let r := fillCalc price order st
  { r.2 with order_book := aerase r.2.order_book oid,
             order_fill := r.2.order_fill ++ [(r.2.index, r.1)] }

/-- The loop body of SimulationPortfolio.step, iterating over the snapshot of
order ids taken at entry (get_order_ids returns list(self.order_book)) while
the book itself evolves.  A snapshot id that is no longer a key would raise
KeyError in get_order_by_id; the loop below returns the state unchanged in
that case, which is unreachable because nothing in this model removes a
not-yet-visited key mid-step. -/
def stepOrders (price : ℚ) : List ℕ → PortState → PortState
  | [], st => st
  | oid :: rest, st =>
    match alookup st.order_book oid with
    | none => stepOrders price rest st
    | some order =>
      match order with
      | .marketBuy .. | .marketSell .. =>
          stepOrders price rest (fillApply price oid order st)
      | .limitBuy _ _ _ lp =>
          if price ≤ lp then stepOrders price rest (fillApply price oid order st)
          else stepOrders price rest st
      | .limitSell _ _ _ lp =>
          if lp ≤ price then stepOrders price rest (fillApply price oid order st)
          else stepOrders price rest st
      | .stopBuy i h b sp lp =>
          if sp ≤ price then
            stepOrders price rest
              { st with
                order_book := aset st.order_book oid (Order.limitBuy i h b lp) }
          else stepOrders price rest st
      | .stopSell i h q sp lp =>
          if price ≤ sp then
            stepOrders price rest
              { st with
                order_book := aset st.order_book oid (Order.limitSell i h q lp) }
          else stepOrders price rest st

/-- SimulationPortfolio.step(price): iterates the matching rules over a
snapshot of the open order ids, then increments the tick index.  Market
orders fill unconditionally; a limit buy fills iff price is at most its limit
price; a limit sell fills iff price is at least its limit price; a stop order
whose trigger is crossed is replaced in the book, under the same id, by the
corresponding resting limit order. -/
def PortState.step (price : ℚ) (st : PortState) : PortState :=
  let st1 := stepOrders price (akeys st.order_book) st
  { st1 with index := st1.index + 1 }

/-- Running the portfolio over a tick sequence. -/
def runTicks (prices : List ℚ) (st : PortState) : PortState :=
  prices.foldl (fun s p => PortState.step p s) st

/-! ## GridStrategy (src/ethtrade/strategy/grid_strategy.py) -/

/-- Upper bound of a level: a finite price, or math.inf for the tail
sentinel. -/
inductive UBound where
  | fin (q : ℚ)
  | inf
deriving DecidableEq, Repr

/-- The comparison price > u against an upper bound u: a finite price never
exceeds math.inf. -/
def ubLt (u : UBound) (price : ℚ) : Bool :=
  match u with
  | .fin q => q < price
  | .inf => false

/-- A grid level (the Level dataclass): budget and quantity allocation, the
price band, and the ids of the orders currently associated with this level.
The prev and next pointers of the dataclass are represented positionally: the
strategy builds the levels as a single chain and never relinks it, so the
chain is stored as an array in which level i has prev i - 1 and next i + 1,
the head sentinel sits at index 0 (prev None) and the tail sentinel at the
last index (next None). -/
structure Level where
  budget : ℚ
  quantity : ℚ
  lower_bound : ℚ
  upper_bound : UBound
  order_ids : List ℕ
deriving DecidableEq, Repr

/-- The GridStrategy state: the portfolio it drives, the level chain, the
index of the current level, and the order-id-to-level map (a level is
identified by its chain index). -/
structure GridState where
  port : PortState
  levels : Array Level
  current : ℕ
  order_id_to_level_map : List (ℕ × ℕ)
deriving DecidableEq, Repr

/-- The loop of GridStrategy.\_construct\_linked\_list over consecutive
boundary pairs: one finite level per pair, seeded with portfolio.budget / n
and zero quantity, plus a stop-buy order at the lower boundary of the pair
(stop 50 below the boundary, limit at the boundary, the level's budget as
size, the strategy's buy callback as handler), registered in the map and in
the level's id list.  Returns the grown level array, the map, the mutated
portfolio and the last boundary. -/
def buildLevels (n : ℕ) : ℚ → List ℚ → Array Level → List (ℕ × ℕ) →
    PortState → Array Level × List (ℕ × ℕ) × PortState × ℚ
  | lo, [], lvls, m, port => (lvls, m, port, lo)
  | lo, hi :: rest, lvls, m, port =>
      let budget := port.budget / (n : ℚ)
      let r := place_stop_buy_order (lo - 50) lo budget .buyCb port
      buildLevels n hi rest
        (lvls.push { budget := budget, quantity := 0, lower_bound := lo,
                     upper_bound := .fin hi, order_ids := [r.1] })
        (aset m r.1 lvls.size) r.2

/-- GridStrategy.\_construct\_linked\_list for an ascending boundary list:
head sentinel with zero allocation and band [0, b0), the finite levels from
the boundary pairs, and a zero-allocation tail sentinel from the last
boundary to math.inf.  After the loop the current level is the last finite
level (the head itself when there is a single boundary).  An empty boundary
list would raise IndexError in the source. -/
def constructGrid (port : PortState) (bounds : List ℚ) : Option GridState :=
  match bounds with
  | [] => none
  | b0 :: rest =>
    let n := bounds.length - 1
    let head : Level :=
      { budget := 0, quantity := 0, lower_bound := 0, upper_bound := .fin b0,
        order_ids := [] }
    let r := buildLevels n b0 rest #[head] [] port
    let tail : Level :=
      { budget := 0, quantity := 0, lower_bound := r.2.2.2, upper_bound := .inf,
        order_ids := [] }
    some { port := r.2.2.1, levels := r.1.push tail,
           current := r.1.size - 1, order_id_to_level_map := r.2.1 }

/-- GridStrategy.\_buy\_callback: debit the owning level's budget by the
order's budget, credit its quantity by the filled amount, drop the order id
from the map and from the level's id list.  The source places no follow-up
order here.  A missing map entry or id-list entry, an out-of-range level, or
a sell order (which has no budget attribute) would raise in Python and yields
none. -/
def buyCallback (fo : FilledOrder) (gs : GridState) : Option GridState :=
  match alookup gs.order_id_to_level_map fo.order.oid with
  | none => none
  | some li =>
    if hli : li < gs.levels.size then
      match fo.order.budgetAttr with
      | none => none
      | some b =>
        let lvl := gs.levels[li]
        if fo.order.oid ∈ lvl.order_ids then
          some { gs with
            levels := gs.levels.set ⟨li, hli⟩
              { lvl with budget := lvl.budget - b,
                         quantity := lvl.quantity + fo.quantity,
                         order_ids := lvl.order_ids.erase fo.order.oid },
            order_id_to_level_map := aerase gs.order_id_to_level_map fo.order.oid }
        else none
    else none

/-- GridStrategy.\_sell\_callback: credit the owning level's budget by the
sale proceeds (price times quantity), debit its quantity, drop the id from
the map and the level's id list, then place a limit buy at the level's lower
bound for the refreshed budget, with the buy callback, and register it. -/
def sellCallback (fo : FilledOrder) (gs : GridState) : Option GridState :=
  match alookup gs.order_id_to_level_map fo.order.oid with
  | none => none
  | some li =>
    if hli : li < gs.levels.size then
      let lvl := gs.levels[li]
      if fo.order.oid ∈ lvl.order_ids then
        let lvl1 : Level :=
          { lvl with budget := lvl.budget + fo.price * fo.quantity,
                     quantity := lvl.quantity - fo.quantity,
                     order_ids := lvl.order_ids.erase fo.order.oid }
        let m1 := aerase gs.order_id_to_level_map fo.order.oid
        let r := place_limit_buy_order lvl1.lower_bound lvl1.budget .buyCb gs.port
        some { gs with
          port := r.2,
          levels := gs.levels.set ⟨li, hli⟩
            { lvl1 with order_ids := lvl1.order_ids ++ [r.1] },
          order_id_to_level_map := aset m1 r.1 li }
      else none
    else none

/-- Dispatch of order.fill\_handler inside \_fill\_order: the strategy
installs \_buy\_callback on its buy orders and \_sell\_callback on
consolidated sells; an inert handler (a test lambda) leaves the strategy
state alone. -/
def runHandler : Handler → FilledOrder → GridState → Option GridState
  | .noop, _, gs => some gs
  | .buyCb, fo, gs => buyCallback fo gs
  | .sellCb, fo, gs => sellCallback fo gs

/-- A matched order inside the grid-driven portfolio step: \_fill\_order
mutates the balances and invokes the fill handler, then the step loop deletes
the id from the book and records the fill. -/
def gridFill (price : ℚ) (oid : ℕ) (order : Order) (gs : GridState) :
    Option GridState :=
  let r := fillCalc price order gs.port
  match runHandler order.fillHandler r.1 { gs with port := r.2 } with
  | none => none
  | some gs2 =>
      some { gs2 with port :=
        { gs2.port with order_book := aerase gs2.port.order_book oid,
                        order_fill := gs2.port.order_fill ++ [(gs2.port.index, r.1)] } }

/-- SimulationPortfolio.step under the grid strategy: the same snapshot loop
as stepOrders, with the strategy's fill handlers interpreted (they may place
new orders mid-tick; such orders are not in the snapshot and are not
processed until the next tick).  A snapshot id missing from the book would
raise KeyError and yields none. -/
def gridStepOrders (price : ℚ) : List ℕ → GridState → Option GridState
  | [], gs => some gs
  | oid :: rest, gs =>
    match alookup gs.port.order_book oid with
    | none => none
    | some order =>
      match order with
      | .marketBuy .. | .marketSell .. =>
          (gridFill price oid order gs).bind (gridStepOrders price rest)
      | .limitBuy _ _ _ lp =>
          if price ≤ lp then
            (gridFill price oid order gs).bind (gridStepOrders price rest)
          else gridStepOrders price rest gs
      | .limitSell _ _ _ lp =>
          if lp ≤ price then
            (gridFill price oid order gs).bind (gridStepOrders price rest)
          else gridStepOrders price rest gs
      | .stopBuy i h b sp lp =>
          if sp ≤ price then
            gridStepOrders price rest
              { gs with port := { gs.port with
                  order_book := aset gs.port.order_book oid (Order.limitBuy i h b lp) } }
          else gridStepOrders price rest gs
      | .stopSell i h q sp lp =>
          if price ≤ sp then
            gridStepOrders price rest
              { gs with port := { gs.port with
                  order_book := aset gs.port.order_book oid (Order.limitSell i h q lp) } }
          else gridStepOrders price rest gs

/-- The portfolio tick inside GridStrategy.step: run the snapshot loop, then
increment the tick index. -/
def gridPortStep (price : ℚ) (gs : GridState) : Option GridState :=
  (gridStepOrders price (akeys gs.port.order_book) gs).map
    (fun gs1 => { gs1 with port := { gs1.port with index := gs1.port.index + 1 } })

/-- The for-loop of \_handle\_rising\_leaving\_level over the live list
level.order\_ids, indexed the way a Python for statement walks a list that
the body mutates: a cancelled sell is removed from the list and a replacement
stop-sell appended, so the list keeps its length and later iterations see the
shifted elements.  remaining is the remaining\_quantity accumulator.  Python
errors (missing book key, out-of-range level, arithmetic on an infinite upper
bound) yield none. -/
def riseFor (price : ℚ) (li : ℕ) (i : ℕ) (remaining : ℚ) (gs : GridState) :
    Option (ℚ × GridState) :=
  if hli : li < gs.levels.size then
    if hi : i < (gs.levels[li]).order_ids.length then
      let oid := (gs.levels[li]).order_ids[i]
      match alookup gs.port.order_book oid with
      | none => none
      | some order =>
        if order.isSell then
          match (gs.levels[li]).upper_bound, order.quantityAttr with
          | .fin ub, some q =>
              let port1 := cancel_order oid gs.port
              let m1 := aerase gs.order_id_to_level_map oid
              let r := place_stop_sell_order (ub + 50) ub q order.fillHandler port1
              let lvl := gs.levels[li]
              riseFor price li (i + 1) (remaining - q)
                { gs with
                  port := r.2,
                  order_id_to_level_map := aset m1 r.1 li,
                  levels := gs.levels.set ⟨li, hli⟩
                    { lvl with order_ids := lvl.order_ids.erase oid ++ [r.1] } }
          | _, _ => none
        else riseFor price li (i + 1) remaining gs
    else some (remaining, gs)
  else none
termination_by (gs.levels.getD li ⟨0, 0, 0, .inf, []⟩).order_ids.length - i
decreasing_by
  · have hmem : (gs.levels[li]).order_ids[i] ∈ (gs.levels[li]).order_ids :=
      List.getElem_mem hi
    have hlen := List.length_erase_of_mem hmem
    simp only [Array.getD, Array.size_set, hli, dif_pos, Array.get_eq_getElem,
      Array.getElem_set_eq, List.length_append, hlen, List.length_singleton]
    omega
  · simp only [Array.getD, hli, dif_pos, Array.get_eq_getElem]
    omega

/-- One iteration of the while-loop of \_handle\_rising\_leaving\_level for
the level at index li: run the for-loop over its order ids with
remaining\_quantity initialised to level.quantity, then, if remaining
quantity is positive, place one consolidated stop-sell for it at the level's
upper bound, with the strategy's sell callback, and register it. -/
def riseLevel (price : ℚ) (li : ℕ) (gs : GridState) : Option GridState :=
  if hli : li < gs.levels.size then
    match riseFor price li 0 ((gs.levels[li]).quantity) gs with
    | none => none
    | some (remaining, gs1) =>
      if 0 < remaining then
        if hli1 : li < gs1.levels.size then
          let lvl := gs1.levels[li]
          match lvl.upper_bound with
          | .fin ub =>
            let r := place_stop_sell_order (ub + 50) ub remaining .sellCb gs1.port
            some { gs1 with
              port := r.2,
              order_id_to_level_map := aset gs1.order_id_to_level_map r.1 li,
              levels := gs1.levels.set ⟨li, hli1⟩
                { lvl with order_ids := lvl.order_ids ++ [r.1] } }
          | .inf => none
        else none
      else some gs1
  else none

/-- The while-loop of \_handle\_rising\_leaving\_level: process the level at
index li, then its predecessor, stopping at the head sentinel (whose prev is
None), which is not processed. -/
def riseLevels (price : ℚ) : ℕ → GridState → Option GridState
  | 0, gs => some gs
  | li + 1, gs => (riseLevel price (li + 1) gs).bind (riseLevels price li)

/-- GridStrategy.\_handle\_rising\_leaving\_level, starting from the current
level and walking backwards through the chain. -/
def handleRisingLeaving (price : ℚ) (gs : GridState) : Option GridState :=
  riseLevels price gs.current gs

/-- The advance loop of GridStrategy.step: while the price exceeds the
current level's upper bound, move to the next level.  Walking past the tail
sentinel (whose next is None) would crash in Python; that is the none case,
never reached because the tail's upper bound is math.inf. -/
def advanceFrom (levels : Array Level) (price : ℚ) (idx : ℕ) : Option ℕ :=
  if h : idx < levels.size then
    if ubLt (levels[idx]).upper_bound price then advanceFrom levels price (idx + 1)
    else some idx
  else none
termination_by levels.size - idx

/-- The retreat loop of GridStrategy.step: while the price is below the
current level's lower bound, move to the previous level.  Walking below the
head sentinel (whose prev is None) would crash in Python; that is the none
case, never reached for nonnegative prices since the head's lower bound is
0. -/
def retreatFrom (levels : Array Level) (price : ℚ) (idx : ℕ) : Option ℕ :=
  if h : idx < levels.size then
    if price < (levels[idx]).lower_bound then
      match idx with
      | 0 => none
      | j + 1 => retreatFrom levels price j
    else some idx
  else none
termination_by idx

/-- GridStrategy.step(price): when the price left the current level upward,
run the rising-leaving hook, advance while the price exceeds the current
upper bound, then the entering hook (a no-op in the source); symmetrically
retreat when the price fell below the lower bound (both falling hooks are
no-ops in the source); finally run the portfolio tick, whose fills drive the
callbacks. -/
def GridState.step (price : ℚ) (gs : GridState) : Option GridState :=
  if hc : gs.current < gs.levels.size then
    let moved : Option GridState :=
      if ubLt (gs.levels[gs.current]).upper_bound price then
        (handleRisingLeaving price gs).bind (fun gs1 =>
          (advanceFrom gs1.levels price gs1.current).map
            (fun c => { gs1 with current := c }))
      else if price < (gs.levels[gs.current]).lower_bound then
        (retreatFrom gs.levels price gs.current).map
          (fun c => { gs with current := c })
      else some gs
    moved.bind (gridPortStep price)
  else none

/-- Running the grid strategy over a tick sequence. -/
def runGrid (prices : List ℚ) (gs : GridState) : Option GridState :=
  prices.foldlM (fun s p => GridState.step p s) gs

/-! ## Invariants -/

/-- Well-formedness of an order book: unique keys, and each stored order
embeds its key as its order id (as every placement in the source does). -/
def BookWF (book : List (ℕ × Order)) : Prop :=
  (akeys book).Nodup ∧ ∀ p ∈ book, p.2.oid = p.1

/-- Portfolio well-formedness: a well-formed book whose keys are all below
the fresh-id counter. -/
def PortWF (st : PortState) : Prop :=
  BookWF st.order_book ∧ ∀ p ∈ st.order_book, p.1 < st.next_id

/-- The central consistency invariant of the grid strategy: the portfolio is
well formed; the map keys are unique; the map only targets existing levels;
an id maps to a level exactly when it sits in that level's id list; the id
lists are duplicate-free; and every mapped id is an open order of the
portfolio (with a strategy handler, never an inert one). -/
def Consistent (gs : GridState) : Prop :=
  PortWF gs.port ∧
  (akeys gs.order_id_to_level_map).Nodup ∧
  (∀ oid li, alookup gs.order_id_to_level_map oid = some li → li < gs.levels.size) ∧
  (∀ oid li, ∀ hli : li < gs.levels.size,
      (alookup gs.order_id_to_level_map oid = some li ↔
        oid ∈ (gs.levels[li]).order_ids)) ∧
  (∀ li, ∀ hli : li < gs.levels.size, (gs.levels[li]).order_ids.Nodup) ∧
  (∀ oid li, alookup gs.order_id_to_level_map oid = some li →
      ∃ o, alookup gs.port.order_book oid = some o ∧ o.fillHandler ≠ Handler.noop)


/-! ## Concrete states used by the tests and scenarios -/

/-- The portfolio of TestSimulationPortfolio.test\_place\_limit\_buy\_order:
cash 1000, no asset, fee 0.005, one resting limit buy at 3000 for the full
budget (under id 0), before any tick. -/
def testPortfolio : PortState :=
  { budget := 1000, quantity := 0, transaction_fee := .rate (1/200),
    order_book := [(0, Order.limitBuy 0 .noop 1000 3000)],
    order_fill := [], index := 0, next_id := 1 }

/-- A portfolio holding one stop buy order with stop 10 and limit 20 (stop
below limit, as the grid strategy places them), fee 0. -/
def stopPortfolio : PortState :=
  { budget := 1000, quantity := 0, transaction_fee := .rate 0,
    order_book := [(0, Order.stopBuy 0 .noop 100 10 20)],
    order_fill := [], index := 0, next_id := 1 }

/-- An empty portfolio with budget 1000 and fee 0, driven by the grid
strategy in the concrete grid scenarios. -/
def gridPortfolio : PortState :=
  { budget := 1000, quantity := 0, transaction_fee := .rate 0,
    order_book := [], order_fill := [], index := 0, next_id := 0 }

/-- An empty portfolio with budget 10000 and fee 0.005, as in the grid
construction scenario of the spec. -/
def gridPortfolio10000 : PortState :=
  { budget := 10000, quantity := 0, transaction_fee := .rate (1/200),
    order_book := [], order_fill := [], index := 0, next_id := 0 }

/-- The sequence of stop-buy orders placed by the construction loop over the
boundary pairs starting at lo: one per boundary except the last, sized B / n,
stop 50 below the boundary and limit at the boundary, ids counting up from
nid. -/
def stopChain (n : ℕ) (B : ℚ) : ℕ → ℚ → List ℚ → List (ℕ × Order)
  | _, _, [] => []
  | nid, lo, hi :: rest =>
      (nid, Order.stopBuy nid .buyCb (B / (n : ℚ)) (lo - 50) lo)
        :: stopChain n B (nid + 1) hi rest

/-- The finite levels created by the construction loop over the boundary
pairs starting at lo, each seeded with budget B / n and holding the single
stop-buy id placed for it. -/
def levelChain (n : ℕ) (B : ℚ) : ℕ → ℚ → List ℚ → List Level
  | _, _, [] => []
  | nid, lo, hi :: rest =>
      { budget := B / (n : ℚ), quantity := 0, lower_bound := lo,
        upper_bound := .fin hi, order_ids := [nid] }
        :: levelChain n B (nid + 1) hi rest

/-- The order-id-to-level map built by the construction loop: order nid + j
belongs to level li + j. -/
def mapChain : ℕ → ℕ → List ℚ → List (ℕ × ℕ)
  | _, _, [] => []
  | nid, li, _ :: rest => (nid, li) :: mapChain (nid + 1) (li + 1) rest

/-- The head sentinel of the concrete two-boundary grid scenario. -/
def lvlHead : Level := ⟨0, 0, 0, .fin 100, []⟩

/-- The single finite level of the concrete two-boundary grid scenario. -/
def lvlMid : Level := ⟨1000, 0, 100, .fin 200, [0]⟩

/-- The tail sentinel of the concrete two-boundary grid scenario. -/
def lvlTail : Level := ⟨0, 0, 200, .inf, []⟩

/-- The grid built over gridPortfolio with boundaries [100, 200]. -/
def gridEx0 : GridState :=
  { port :=
      { budget := 1000
        quantity := 0
        transaction_fee := .rate 0
        order_book := [(0, Order.stopBuy 0 .buyCb 1000 50 100)]
        order_fill := []
        index := 0
        next_id := 1 }
    levels := #[lvlHead, lvlMid, lvlTail]
    current := 1
    order_id_to_level_map := [(0, 1)] }

/-- gridEx0 after one tick at price 60: the pointer retreated to the head
and the stop buy converted to a resting limit buy. -/
def gridEx1 : GridState :=
  { port :=
      { budget := 1000
        quantity := 0
        transaction_fee := .rate 0
        order_book := [(0, Order.limitBuy 0 .buyCb 1000 100)]
        order_fill := []
        index := 1
        next_id := 1 }
    levels := #[lvlHead, lvlMid, lvlTail]
    current := 0
    order_id_to_level_map := [(0, 1)] }

/-- gridEx1 after another tick at price 60: the limit buy filled, the buy
callback ran, and the book is empty: no stop-sell order was placed. -/
def gridEx2 : GridState :=
  { port :=
      { budget := 0
        quantity := 50/3
        transaction_fee := .rate 0
        order_book := []
        order_fill := [(1, ⟨Order.limitBuy 0 .buyCb 1000 100, 60, 50/3⟩)]
        index := 2
        next_id := 1 }
    levels := #[lvlHead, ⟨0, 50/3, 100, .fin 200, []⟩, lvlTail]
    current := 0
    order_id_to_level_map := [] }

/-! ## Lemmas about the association-list primitives -/

theorem alookup_cons {β : Type} (a : ℕ) (b : β) (t : List (ℕ × β)) (k : ℕ) :
    alookup ((a, b) :: t) k = if a = k then some b else alookup t k := rfl

theorem aerase_cons {β : Type} (a : ℕ) (b : β) (t : List (ℕ × β)) (k : ℕ) :
    aerase ((a, b) :: t) k = if a = k then t else (a, b) :: aerase t k := rfl

theorem aset_cons {β : Type} (a : ℕ) (b : β) (t : List (ℕ × β)) (k : ℕ) (v : β) :
    aset ((a, b) :: t) k v = if a = k then (k, v) :: t else (a, b) :: aset t k v := rfl

theorem akeys_nil {β : Type} : akeys ([] : List (ℕ × β)) = [] := rfl

theorem akeys_cons {β : Type} (a : ℕ) (b : β) (t : List (ℕ × β)) :
    akeys ((a, b) :: t) = a :: akeys t := rfl

theorem akeys_append {β : Type} (l₁ l₂ : List (ℕ × β)) :
    akeys (l₁ ++ l₂) = akeys l₁ ++ akeys l₂ := by
  simp [akeys]

theorem mem_akeys {β : Type} {l : List (ℕ × β)} {k : ℕ} :
    k ∈ akeys l ↔ ∃ b, (k, b) ∈ l := by
  constructor
  · intro hk
    obtain ⟨p, hp, he⟩ := List.mem_map.mp hk
    exact ⟨p.2, by rw [← he, Prod.mk.eta]; exact hp⟩
  · rintro ⟨b, hm⟩
    exact List.mem_map.mpr ⟨(k, b), hm, rfl⟩

theorem alookup_eq_none_iff {β : Type} {l : List (ℕ × β)} {k : ℕ} :
    alookup l k = none ↔ k ∉ akeys l := by
  induction l with
  | nil => simp [alookup, akeys_nil]
  | cons p t ih =>
      obtain ⟨a, b⟩ := p
      by_cases h : a = k
      · simp [alookup_cons, akeys_cons, h]
      · rw [alookup_cons, if_neg h, akeys_cons, ih]
        simp only [List.mem_cons]
        constructor
        · intro hk hc
          rcases hc with hc | hc
          · exact h hc.symm
          · exact hk hc
        · intro hk hc
          exact hk (Or.inr hc)

theorem alookup_isSome_iff {β : Type} {l : List (ℕ × β)} {k : ℕ} :
    (alookup l k).isSome = true ↔ k ∈ akeys l := by
  rw [Option.isSome_iff_ne_none]
  constructor
  · intro h
    by_contra hk
    exact h (alookup_eq_none_iff.mpr hk)
  · intro h heq
    exact (alookup_eq_none_iff.mp heq) h

theorem alookup_mem {β : Type} {l : List (ℕ × β)} {k : ℕ} {v : β}
    (h : alookup l k = some v) : (k, v) ∈ l := by
  induction l with
  | nil => simp [alookup] at h
  | cons p t ih =>
      obtain ⟨a, b⟩ := p
      rw [alookup_cons] at h
      by_cases hak : a = k
      · rw [if_pos hak] at h
        injection h with hbv
        subst hak hbv
        exact List.mem_cons_self _ _
      · rw [if_neg hak] at h
        exact List.mem_cons_of_mem _ (ih h)

theorem alookup_some_mem_akeys {β : Type} {l : List (ℕ × β)} {k : ℕ} {v : β}
    (h : alookup l k = some v) : k ∈ akeys l :=
  mem_akeys.mpr ⟨v, alookup_mem h⟩

theorem alookup_aerase_ne {β : Type} (l : List (ℕ × β)) (k k' : ℕ) (hne : k' ≠ k) :
    alookup (aerase l k) k' = alookup l k' := by
  induction l with
  | nil => rfl
  | cons p t ih =>
      obtain ⟨a, b⟩ := p
      rw [aerase_cons]
      by_cases hak : a = k
      · subst hak
        rw [if_pos rfl, alookup_cons, if_neg (fun h => hne h.symm)]
      · rw [if_neg hak, alookup_cons, alookup_cons, ih]

theorem alookup_aerase_self {β : Type} (l : List (ℕ × β)) (k : ℕ)
    (hnd : (akeys l).Nodup) : alookup (aerase l k) k = none := by
  induction l with
  | nil => rfl
  | cons p t ih =>
      obtain ⟨a, b⟩ := p
      rw [akeys_cons, List.nodup_cons] at hnd
      rw [aerase_cons]
      by_cases hak : a = k
      · rw [if_pos hak]
        subst hak
        exact alookup_eq_none_iff.mpr hnd.1
      · rw [if_neg hak, alookup_cons, if_neg hak]
        exact ih hnd.2

theorem akeys_aerase_sublist {β : Type} (l : List (ℕ × β)) (k : ℕ) :
    (akeys (aerase l k)).Sublist (akeys l) := by
  induction l with
  | nil => exact List.Sublist.refl _
  | cons p t ih =>
      obtain ⟨a, b⟩ := p
      rw [aerase_cons]
      by_cases hak : a = k
      · rw [if_pos hak, akeys_cons]
        exact List.sublist_cons_self _ _
      · rw [if_neg hak, akeys_cons, akeys_cons]
        exact ih.cons₂ a

theorem akeys_aerase_nodup {β : Type} (l : List (ℕ × β)) (k : ℕ)
    (hnd : (akeys l).Nodup) : (akeys (aerase l k)).Nodup :=
  (akeys_aerase_sublist l k).nodup hnd

theorem aerase_sublist {β : Type} (l : List (ℕ × β)) (k : ℕ) :
    (aerase l k).Sublist l := by
  induction l with
  | nil => exact List.Sublist.refl _
  | cons p t ih =>
      obtain ⟨a, b⟩ := p
      rw [aerase_cons]
      by_cases hak : a = k
      · rw [if_pos hak]
        exact List.sublist_cons_self _ _
      · rw [if_neg hak]
        exact ih.cons₂ _

theorem mem_aerase {β : Type} {l : List (ℕ × β)} {k : ℕ} {p : ℕ × β}
    (h : p ∈ aerase l k) : p ∈ l :=
  (aerase_sublist l k).mem h

theorem not_mem_akeys_aerase_self {β : Type} (l : List (ℕ × β)) (k : ℕ)
    (hnd : (akeys l).Nodup) : k ∉ akeys (aerase l k) :=
  alookup_eq_none_iff.mp (alookup_aerase_self l k hnd)

theorem alookup_aset_self {β : Type} (l : List (ℕ × β)) (k : ℕ) (v : β) :
    alookup (aset l k v) k = some v := by
  induction l with
  | nil => simp [aset, alookup_cons]
  | cons p t ih =>
      obtain ⟨a, b⟩ := p
      rw [aset_cons]
      by_cases hak : a = k
      · rw [if_pos hak, alookup_cons, if_pos rfl]
      · rw [if_neg hak, alookup_cons, if_neg hak, ih]

theorem alookup_aset_ne {β : Type} (l : List (ℕ × β)) (k k' : ℕ) (v : β)
    (hne : k' ≠ k) : alookup (aset l k v) k' = alookup l k' := by
  induction l with
  | nil =>
      rw [show (aset ([] : List (ℕ × β)) k v) = [(k, v)] from rfl, alookup_cons,
        if_neg (fun h => hne h.symm)]
  | cons p t ih =>
      obtain ⟨a, b⟩ := p
      rw [aset_cons]
      by_cases hak : a = k
      · subst hak
        rw [if_pos rfl, alookup_cons, alookup_cons, if_neg (fun h => hne h.symm),
          if_neg (fun h => hne h.symm)]
      · rw [if_neg hak, alookup_cons, alookup_cons, ih]

theorem akeys_aset_of_mem {β : Type} (l : List (ℕ × β)) (k : ℕ) (v : β)
    (hk : k ∈ akeys l) : akeys (aset l k v) = akeys l := by
  induction l with
  | nil => simp [akeys_nil] at hk
  | cons p t ih =>
      obtain ⟨a, b⟩ := p
      rw [aset_cons]
      by_cases hak : a = k
      · rw [if_pos hak, akeys_cons, akeys_cons, hak]
      · rw [akeys_cons, List.mem_cons] at hk
        rw [if_neg hak, akeys_cons, akeys_cons,
          ih (hk.resolve_left (fun h => hak h.symm))]

theorem akeys_aset_of_not_mem {β : Type} (l : List (ℕ × β)) (k : ℕ) (v : β)
    (hk : k ∉ akeys l) : akeys (aset l k v) = akeys l ++ [k] := by
  induction l with
  | nil => rfl
  | cons p t ih =>
      obtain ⟨a, b⟩ := p
      rw [akeys_cons, List.mem_cons] at hk
      push_neg at hk
      rw [aset_cons, if_neg (fun h => hk.1 h.symm), akeys_cons, akeys_cons,
        ih hk.2, List.cons_append]

theorem mem_aset {β : Type} {l : List (ℕ × β)} {k : ℕ} {v : β} {p : ℕ × β}
    (hp : p ∈ aset l k v) : p ∈ l ∨ p = (k, v) := by
  induction l with
  | nil => simp [aset] at hp; simp [hp]
  | cons q t ih =>
      obtain ⟨a, b⟩ := q
      rw [aset_cons] at hp
      by_cases hak : a = k
      · rw [if_pos hak, List.mem_cons] at hp
        rcases hp with h | h
        · exact Or.inr h
        · exact Or.inl (List.mem_cons_of_mem _ h)
      · rw [if_neg hak, List.mem_cons] at hp
        rcases hp with h | h
        · exact Or.inl (by rw [h]; exact List.mem_cons_self _ _)
        · rcases ih h with h2 | h2
          · exact Or.inl (List.mem_cons_of_mem _ h2)
          · exact Or.inr h2

theorem mem_append_single {β : Type} {l : List (ℕ × β)} {x p : ℕ × β}
    (hp : p ∈ l ++ [x]) : p ∈ l ∨ p = x := by
  rcases List.mem_append.mp hp with h | h
  · exact Or.inl h
  · exact Or.inr (List.mem_singleton.mp h)

theorem alookup_append_single_ne {β : Type} (l : List (ℕ × β)) (k k' : ℕ) (v : β)
    (hne : k' ≠ k) : alookup (l ++ [(k, v)]) k' = alookup l k' := by
  induction l with
  | nil =>
      rw [List.nil_append, alookup_cons, if_neg (fun h => hne h.symm)]
  | cons q t ih =>
      obtain ⟨a, b⟩ := q
      rw [List.cons_append, alookup_cons, alookup_cons, ih]

theorem alookup_append_single_self {β : Type} (l : List (ℕ × β)) (k : ℕ) (v : β)
    (hk : k ∉ akeys l) : alookup (l ++ [(k, v)]) k = some v := by
  induction l with
  | nil => simp [alookup_cons]
  | cons q t ih =>
      obtain ⟨a, b⟩ := q
      rw [akeys_cons, List.mem_cons] at hk
      push_neg at hk
      rw [List.cons_append, alookup_cons, if_neg (fun h => hk.1 h.symm)]
      exact ih hk.2


/-! ## Lemmas about fillCalc, fillApply and book well-formedness -/

theorem fillCalc_book (price : ℚ) (order : Order) (st : PortState) :
    (fillCalc price order st).2.order_book = st.order_book := by
  cases order <;> rfl

theorem fillCalc_fee (price : ℚ) (order : Order) (st : PortState) :
    (fillCalc price order st).2.transaction_fee = st.transaction_fee := by
  cases order <;> rfl

theorem fillCalc_fst_order (price : ℚ) (order : Order) (st : PortState) :
    (fillCalc price order st).1.order = order := by
  cases order <;> rfl

theorem fillApply_book (price : ℚ) (oid : ℕ) (order : Order) (st : PortState) :
    (fillApply price oid order st).order_book = aerase st.order_book oid := by
  cases order <;> rfl

theorem fillApply_fill (price : ℚ) (oid : ℕ) (order : Order) (st : PortState) :
    (fillApply price oid order st).order_fill
      = st.order_fill ++ [(st.index, (fillCalc price order st).1)] := by
  cases order <;> rfl

theorem fillApply_fee (price : ℚ) (oid : ℕ) (order : Order) (st : PortState) :
    (fillApply price oid order st).transaction_fee = st.transaction_fee := by
  cases order <;> rfl

theorem fillApply_index (price : ℚ) (oid : ℕ) (order : Order) (st : PortState) :
    (fillApply price oid order st).index = st.index := by
  cases order <;> rfl

theorem fillApply_next_id (price : ℚ) (oid : ℕ) (order : Order) (st : PortState) :
    (fillApply price oid order st).next_id = st.next_id := by
  cases order <;> rfl

theorem BookWF_aerase {book : List (ℕ × Order)} (h : BookWF book) (k : ℕ) :
    BookWF (aerase book k) :=
  ⟨akeys_aerase_nodup _ _ h.1, fun p hp => h.2 p (mem_aerase hp)⟩

theorem BookWF_aset_conv {book : List (ℕ × Order)} {k : ℕ} {o o' : Order}
    (h : BookWF book) (hk : alookup book k = some o) (ho : o'.oid = o.oid) :
    BookWF (aset book k o') := by
  constructor
  · rw [akeys_aset_of_mem _ _ _ (alookup_some_mem_akeys hk)]
    exact h.1
  · intro p hp
    rcases mem_aset hp with hm | hm
    · exact h.2 p hm
    · rw [hm]
      have := h.2 _ (alookup_mem hk)
      simp only at this
      simp only [ho, this]

/-! ## The snapshot loop of SimulationPortfolio.step -/

/-- Properties of one fill inside the step loop. -/
theorem fillApply_props (price : ℚ) (hd : ℕ) (order : Order) (st : PortState)
    (hWF : BookWF st.order_book)
    (hord : alookup st.order_book hd = some order) :
    BookWF (fillApply price hd order st).order_book
    ∧ (fillApply price hd order st).transaction_fee = st.transaction_fee
    ∧ (fillApply price hd order st).index = st.index
    ∧ (fillApply price hd order st).next_id = st.next_id
    ∧ (∀ k, k ≠ hd → alookup (fillApply price hd order st).order_book k
        = alookup st.order_book k)
    ∧ (fillApply price hd order st).order_fill
        = st.order_fill ++ [(st.index, (fillCalc price order st).1)]
    ∧ (fillCalc price order st).1.order.oid = hd := by
  refine ⟨?_, fillApply_fee _ _ _ _, fillApply_index _ _ _ _, fillApply_next_id _ _ _ _,
    ?_, fillApply_fill _ _ _ _, ?_⟩
  · rw [fillApply_book]
    exact BookWF_aerase hWF hd
  · intro k hk
    rw [fillApply_book]
    exact alookup_aerase_ne _ _ _ hk
  · rw [fillCalc_fst_order]
    exact hWF.2 _ (alookup_mem hord)

/-- One iteration of the snapshot loop: the rest of the loop runs from a
state that is still well formed, has the same fee, tick index and fresh-id
counter, whose book agrees with the original away from the processed id, and
whose fills extend the original only by fills of the processed id. -/
theorem stepOrders_cons (price : ℚ) (hd : ℕ) (rest : List ℕ) (st : PortState)
    (hWF : BookWF st.order_book) :
    ∃ st', stepOrders price (hd :: rest) st = stepOrders price rest st'
      ∧ BookWF st'.order_book
      ∧ st'.transaction_fee = st.transaction_fee
      ∧ st'.index = st.index
      ∧ st'.next_id = st.next_id
      ∧ (∀ k, k ≠ hd → alookup st'.order_book k = alookup st.order_book k)
      ∧ ∃ fs, st'.order_fill = st.order_fill ++ fs
          ∧ ∀ e ∈ fs, e.2.order.oid = hd := by
  rcases hlk : alookup st.order_book hd with _ | order
  · exact ⟨st, by simp only [stepOrders, hlk], hWF, rfl, rfl, rfl, fun k _ => rfl,
      [], by simp, by simp⟩
  · have hfill : ∀ hord : alookup st.order_book hd = some order,
        BookWF (fillApply price hd order st).order_book
        ∧ (fillApply price hd order st).transaction_fee = st.transaction_fee
        ∧ (fillApply price hd order st).index = st.index
        ∧ (fillApply price hd order st).next_id = st.next_id
        ∧ (∀ k, k ≠ hd → alookup (fillApply price hd order st).order_book k
            = alookup st.order_book k)
        ∧ ∃ fs, (fillApply price hd order st).order_fill = st.order_fill ++ fs
            ∧ ∀ e ∈ fs, e.2.order.oid = hd := by
      intro hord
      obtain ⟨h1, h2, h3, h4, h5, h6, h7⟩ := fillApply_props price hd order st hWF hord
      exact ⟨h1, h2, h3, h4, h5, [(st.index, (fillCalc price order st).1)], h6,
        by intro e he; rw [List.mem_singleton.mp he]; exact h7⟩
    have hconv : ∀ o' : Order, o'.oid = order.oid →
        BookWF (aset st.order_book hd o')
        ∧ (∀ k, k ≠ hd → alookup (aset st.order_book hd o') k
            = alookup st.order_book k) := by
      intro o' ho
      exact ⟨BookWF_aset_conv hWF hlk ho, fun k hk => alookup_aset_ne _ _ _ _ hk⟩
    cases order with
    | marketBuy i h b =>
        obtain ⟨h1, h2, h3, h4, h5, h6⟩ := hfill hlk
        exact ⟨fillApply price hd _ st, by simp only [stepOrders, hlk], h1, h2, h3, h4, h5, h6⟩
    | marketSell i h q =>
        obtain ⟨h1, h2, h3, h4, h5, h6⟩ := hfill hlk
        exact ⟨fillApply price hd _ st, by simp only [stepOrders, hlk], h1, h2, h3, h4, h5, h6⟩
    | limitBuy i h b lp =>
        by_cases hp : price ≤ lp
        · obtain ⟨h1, h2, h3, h4, h5, h6⟩ := hfill hlk
          exact ⟨fillApply price hd _ st, by simp only [stepOrders, hlk]; rw [if_pos hp],
            h1, h2, h3, h4, h5, h6⟩
        · exact ⟨st, by simp only [stepOrders, hlk]; rw [if_neg hp], hWF, rfl, rfl, rfl,
            fun k _ => rfl, [], by simp, by simp⟩
    | limitSell i h q lp =>
        by_cases hp : lp ≤ price
        · obtain ⟨h1, h2, h3, h4, h5, h6⟩ := hfill hlk
          exact ⟨fillApply price hd _ st, by simp only [stepOrders, hlk]; rw [if_pos hp],
            h1, h2, h3, h4, h5, h6⟩
        · exact ⟨st, by simp only [stepOrders, hlk]; rw [if_neg hp], hWF, rfl, rfl, rfl,
            fun k _ => rfl, [], by simp, by simp⟩
    | stopBuy i h b sp lp =>
        by_cases hp : sp ≤ price
        · obtain ⟨h1, h2⟩ := hconv (Order.limitBuy i h b lp) rfl
          exact ⟨{ st with order_book := aset st.order_book hd (Order.limitBuy i h b lp) },
            by simp only [stepOrders, hlk]; rw [if_pos hp], h1, rfl, rfl, rfl, h2,
            [], by simp, by simp⟩
        · exact ⟨st, by simp only [stepOrders, hlk]; rw [if_neg hp], hWF, rfl, rfl, rfl,
            fun k _ => rfl, [], by simp, by simp⟩
    | stopSell i h q sp lp =>
        by_cases hp : price ≤ sp
        · obtain ⟨h1, h2⟩ := hconv (Order.limitSell i h q lp) rfl
          exact ⟨{ st with order_book := aset st.order_book hd (Order.limitSell i h q lp) },
            by simp only [stepOrders, hlk]; rw [if_pos hp], h1, rfl, rfl, rfl, h2,
            [], by simp, by simp⟩
        · exact ⟨st, by simp only [stepOrders, hlk]; rw [if_neg hp], hWF, rfl, rfl, rfl,
            fun k _ => rfl, [], by simp, by simp⟩

/-- The snapshot loop preserves book well-formedness, fee, tick index and
fresh-id counter; it does not touch ids outside the snapshot; and it only
appends fills, each for an id of the snapshot. -/
theorem stepOrders_frame (price : ℚ) (l : List ℕ) (st : PortState)
    (hWF : BookWF st.order_book) :
    BookWF (stepOrders price l st).order_book
    ∧ (stepOrders price l st).transaction_fee = st.transaction_fee
    ∧ (stepOrders price l st).index = st.index
    ∧ (stepOrders price l st).next_id = st.next_id
    ∧ (∀ k, k ∉ l →
        alookup (stepOrders price l st).order_book k = alookup st.order_book k)
    ∧ ∃ fs, (stepOrders price l st).order_fill = st.order_fill ++ fs
        ∧ ∀ e ∈ fs, e.2.order.oid ∈ l := by
  induction l generalizing st with
  | nil => exact ⟨hWF, rfl, rfl, rfl, fun k _ => rfl, [], by simp [stepOrders], by simp⟩
  | cons hd rest ih =>
      obtain ⟨st', heq, hWF', hfee, hidx, hnid, hbook, fs1, hfs1, hfs1id⟩ :=
        stepOrders_cons price hd rest st hWF
      obtain ⟨h1, h2, h3, h4, h5, fs2, hfs2, hfs2id⟩ := ih st' hWF'
      rw [heq]
      refine ⟨h1, by rw [h2, hfee], by rw [h3, hidx], by rw [h4, hnid], ?_, ?_⟩
      · intro k hk
        rw [h5 k (fun hm => hk (List.mem_cons_of_mem _ hm)),
          hbook k (fun he => hk (he ▸ List.mem_cons_self _ _))]
      · refine ⟨fs1 ++ fs2, by rw [hfs2, hfs1, List.append_assoc], ?_⟩
        intro e he
        rcases List.mem_append.mp he with h | h
        · rw [hfs1id e h]
          exact List.mem_cons_self _ _
        · exact List.mem_cons_of_mem _ (hfs2id e h)

/-- The recorded fills only grow during the snapshot loop. -/
theorem stepOrders_fills_prefix (price : ℚ) (l : List ℕ) (st : PortState) :
    ∃ fs, (stepOrders price l st).order_fill = st.order_fill ++ fs := by
  induction l generalizing st with
  | nil => exact ⟨[], by simp [stepOrders]⟩
  | cons hd rest ih =>
      rcases hlk : alookup st.order_book hd with _ | order
      · simp only [stepOrders, hlk]
        exact ih st
      · have hfa : ∀ o : Order, ∃ fs,
            (stepOrders price rest (fillApply price hd o st)).order_fill
              = st.order_fill ++ fs := by
          intro o
          obtain ⟨fs, hfs⟩ := ih (fillApply price hd o st)
          exact ⟨[(st.index, (fillCalc price o st).1)] ++ fs,
            by rw [hfs, fillApply_fill, List.append_assoc]⟩
        cases order with
        | marketBuy i h b =>
            simp only [stepOrders, hlk]
            exact hfa _
        | marketSell i h q =>
            simp only [stepOrders, hlk]
            exact hfa _
        | limitBuy i h b lp =>
            simp only [stepOrders, hlk]
            by_cases hp : price ≤ lp
            · rw [if_pos hp]; exact hfa _
            · rw [if_neg hp]; exact ih st
        | limitSell i h q lp =>
            simp only [stepOrders, hlk]
            by_cases hp : lp ≤ price
            · rw [if_pos hp]; exact hfa _
            · rw [if_neg hp]; exact ih st
        | stopBuy i h b sp lp =>
            simp only [stepOrders, hlk]
            by_cases hp : sp ≤ price
            · rw [if_pos hp]; exact ih _
            · rw [if_neg hp]; exact ih st
        | stopSell i h q sp lp =>
            simp only [stepOrders, hlk]
            by_cases hp : price ≤ sp
            · rw [if_pos hp]; exact ih _
            · rw [if_neg hp]; exact ih st

/-- A tick of the snapshot loop that records no fill leaves the cash and
asset balances unchanged. -/
theorem stepOrders_no_fill_balances (price : ℚ) (l : List ℕ) (st : PortState) :
    (stepOrders price l st).order_fill = st.order_fill →
    (stepOrders price l st).budget = st.budget
      ∧ (stepOrders price l st).quantity = st.quantity := by
  induction l generalizing st with
  | nil => exact fun _ => ⟨rfl, rfl⟩
  | cons hd rest ih =>
      rcases hlk : alookup st.order_book hd with _ | order
      · simp only [stepOrders, hlk]
        exact ih st
      · have hcontra : ∀ o : Order,
            (stepOrders price rest (fillApply price hd o st)).order_fill
              = st.order_fill → False := by
          intro o hfeq
          obtain ⟨fs, hfs⟩ := stepOrders_fills_prefix price rest (fillApply price hd o st)
          rw [hfs, fillApply_fill, List.append_assoc] at hfeq
          have hlen := congrArg List.length hfeq
          simp only [List.length_append, List.length_cons, List.length_singleton] at hlen
          omega
        cases order with
        | marketBuy i h b =>
            simp only [stepOrders, hlk]
            exact fun hfeq => absurd hfeq (hcontra _)
        | marketSell i h q =>
            simp only [stepOrders, hlk]
            exact fun hfeq => absurd hfeq (hcontra _)
        | limitBuy i h b lp =>
            simp only [stepOrders, hlk]
            by_cases hp : price ≤ lp
            · rw [if_pos hp]
              exact fun hfeq => absurd hfeq (hcontra _)
            · rw [if_neg hp]; exact ih st
        | limitSell i h q lp =>
            simp only [stepOrders, hlk]
            by_cases hp : lp ≤ price
            · rw [if_pos hp]
              exact fun hfeq => absurd hfeq (hcontra _)
            · rw [if_neg hp]; exact ih st
        | stopBuy i h b sp lp =>
            simp only [stepOrders, hlk]
            by_cases hp : sp ≤ price
            · rw [if_pos hp]; exact ih _
            · rw [if_neg hp]; exact ih st
        | stopSell i h q sp lp =>
            simp only [stepOrders, hlk]
            by_cases hp : price ≤ sp
            · rw [if_pos hp]; exact ih _
            · rw [if_neg hp]; exact ih st

/-- Behaviour of the snapshot loop on an open limit buy order: it is filled
at the tick price and removed exactly when price is at most the limit price,
and left untouched otherwise. -/
theorem stepOrders_limitBuy (price : ℚ) (l : List ℕ) (st : PortState)
    (oid i : ℕ) (h : Handler) (b lp : ℚ)
    (hWF : BookWF st.order_book) (hnd : l.Nodup) (hoid : oid ∈ l)
    (hlk : alookup st.order_book oid = some (Order.limitBuy i h b lp)) :
    (price ≤ lp →
       alookup (stepOrders price l st).order_book oid = none ∧
       (st.index, (⟨Order.limitBuy i h b lp, price,
           applyFee st.transaction_fee b / price⟩ : FilledOrder))
         ∈ (stepOrders price l st).order_fill) ∧
    (¬ price ≤ lp →
       alookup (stepOrders price l st).order_book oid
         = some (Order.limitBuy i h b lp)) := by
  induction l generalizing st with
  | nil => cases hoid
  | cons hd rest ih =>
      rcases List.mem_cons.mp hoid with rfl | hmem
      · have hnotin : oid ∉ rest := (List.nodup_cons.mp hnd).1
        simp only [stepOrders, hlk]
        constructor
        · intro hp
          rw [if_pos hp]
          obtain ⟨_, _, _, _, hbook, fs, hfs, _⟩ :=
            stepOrders_frame price rest (fillApply price oid (Order.limitBuy i h b lp) st)
              (by rw [fillApply_book]; exact BookWF_aerase hWF oid)
          constructor
          · rw [hbook oid hnotin, fillApply_book]
            exact alookup_aerase_self _ _ hWF.1
          · rw [hfs, fillApply_fill]
            exact List.mem_append.mpr (Or.inl (List.mem_append.mpr
              (Or.inr (List.mem_singleton.mpr rfl))))
        · intro hp
          rw [if_neg hp]
          obtain ⟨_, _, _, _, hbook, _⟩ := stepOrders_frame price rest st hWF
          rw [hbook oid hnotin, hlk]
      · have hne : oid ≠ hd := by
          intro he
          exact (List.nodup_cons.mp hnd).1 (he ▸ hmem)
        obtain ⟨st', heq, hWF', hfee, hidx, _, hbook, _⟩ :=
          stepOrders_cons price hd rest st hWF
        have hlk' : alookup st'.order_book oid = some (Order.limitBuy i h b lp) := by
          rw [hbook oid hne, hlk]
        have hres := ih st' hWF' (List.nodup_cons.mp hnd).2 hmem hlk'
        rw [hidx, hfee] at hres
        rw [heq]
        exact hres

/-- Behaviour of the snapshot loop on an open limit sell order: it is filled
at the tick price and removed exactly when price is at least the limit price,
and left untouched otherwise. -/
theorem stepOrders_limitSell (price : ℚ) (l : List ℕ) (st : PortState)
    (oid i : ℕ) (h : Handler) (q lp : ℚ)
    (hWF : BookWF st.order_book) (hnd : l.Nodup) (hoid : oid ∈ l)
    (hlk : alookup st.order_book oid = some (Order.limitSell i h q lp)) :
    (lp ≤ price →
       alookup (stepOrders price l st).order_book oid = none ∧
       (st.index, (⟨Order.limitSell i h q lp, price, q⟩ : FilledOrder))
         ∈ (stepOrders price l st).order_fill) ∧
    (¬ lp ≤ price →
       alookup (stepOrders price l st).order_book oid
         = some (Order.limitSell i h q lp)) := by
  induction l generalizing st with
  | nil => cases hoid
  | cons hd rest ih =>
      rcases List.mem_cons.mp hoid with rfl | hmem
      · have hnotin : oid ∉ rest := (List.nodup_cons.mp hnd).1
        simp only [stepOrders, hlk]
        constructor
        · intro hp
          rw [if_pos hp]
          obtain ⟨_, _, _, _, hbook, fs, hfs, _⟩ :=
            stepOrders_frame price rest (fillApply price oid (Order.limitSell i h q lp) st)
              (by rw [fillApply_book]; exact BookWF_aerase hWF oid)
          constructor
          · rw [hbook oid hnotin, fillApply_book]
            exact alookup_aerase_self _ _ hWF.1
          · rw [hfs, fillApply_fill]
            exact List.mem_append.mpr (Or.inl (List.mem_append.mpr
              (Or.inr (List.mem_singleton.mpr rfl))))
        · intro hp
          rw [if_neg hp]
          obtain ⟨_, _, _, _, hbook, _⟩ := stepOrders_frame price rest st hWF
          rw [hbook oid hnotin, hlk]
      · have hne : oid ≠ hd := by
          intro he
          exact (List.nodup_cons.mp hnd).1 (he ▸ hmem)
        obtain ⟨st', heq, hWF', hfee, hidx, _, hbook, _⟩ :=
          stepOrders_cons price hd rest st hWF
        have hlk' : alookup st'.order_book oid = some (Order.limitSell i h q lp) := by
          rw [hbook oid hne, hlk]
        have hres := ih st' hWF' (List.nodup_cons.mp hnd).2 hmem hlk'
        rw [hidx] at hres
        rw [heq]
        exact hres

/-- Behaviour of the snapshot loop on an open stop buy order: when price
reaches the stop price it is replaced in the book, under the same id, by the
resting limit buy, and no fill is recorded for this id on this tick (the
snapshot loop visits each id once, so the converted order is not examined
again until the next tick); below the stop price it is untouched. -/
theorem stepOrders_stopBuy (price : ℚ) (l : List ℕ) (st : PortState)
    (oid i : ℕ) (h : Handler) (b sp lp : ℚ)
    (hWF : BookWF st.order_book) (hnd : l.Nodup) (hoid : oid ∈ l)
    (hlk : alookup st.order_book oid = some (Order.stopBuy i h b sp lp)) :
    (sp ≤ price →
       alookup (stepOrders price l st).order_book oid
           = some (Order.limitBuy i h b lp)
       ∧ ∃ fs, (stepOrders price l st).order_fill = st.order_fill ++ fs
           ∧ ∀ e ∈ fs, e.2.order.oid ≠ oid) ∧
    (¬ sp ≤ price →
       alookup (stepOrders price l st).order_book oid
         = some (Order.stopBuy i h b sp lp)) := by
  induction l generalizing st with
  | nil => cases hoid
  | cons hd rest ih =>
      rcases List.mem_cons.mp hoid with rfl | hmem
      · have hnotin : oid ∉ rest := (List.nodup_cons.mp hnd).1
        simp only [stepOrders, hlk]
        constructor
        · intro hp
          rw [if_pos hp]
          obtain ⟨_, _, _, _, hbook, fs, hfs, hfsid⟩ := stepOrders_frame price rest
            { st with order_book := aset st.order_book oid (Order.limitBuy i h b lp) }
            (BookWF_aset_conv hWF hlk rfl)
          constructor
          · rw [hbook oid hnotin]
            exact alookup_aset_self _ _ _
          · exact ⟨fs, hfs, fun e he hid => hnotin (hid ▸ hfsid e he)⟩
        · intro hp
          rw [if_neg hp]
          obtain ⟨_, _, _, _, hbook, _⟩ := stepOrders_frame price rest st hWF
          rw [hbook oid hnotin, hlk]
      · have hne : oid ≠ hd := by
          intro he
          exact (List.nodup_cons.mp hnd).1 (he ▸ hmem)
        obtain ⟨st', heq, hWF', hfee, hidx, _, hbook, fs1, hfs1, hfs1id⟩ :=
          stepOrders_cons price hd rest st hWF
        have hlk' : alookup st'.order_book oid = some (Order.stopBuy i h b sp lp) := by
          rw [hbook oid hne, hlk]
        have hres := ih st' hWF' (List.nodup_cons.mp hnd).2 hmem hlk'
        rw [heq]
        constructor
        · intro hp
          obtain ⟨h1, fs2, hfs2, hfs2id⟩ := hres.1 hp
          refine ⟨h1, fs1 ++ fs2, by rw [hfs2, hfs1, List.append_assoc], ?_⟩
          intro e he
          rcases List.mem_append.mp he with hm | hm
          · rw [hfs1id e hm]
            exact fun hh => hne hh.symm
          · exact hfs2id e hm
        · exact hres.2

/-! ## Claim C2: limit order matching -/

theorem step_order_book (price : ℚ) (st : PortState) :
    (PortState.step price st).order_book
      = (stepOrders price (akeys st.order_book) st).order_book := rfl

theorem step_order_fill (price : ℚ) (st : PortState) :
    (PortState.step price st).order_fill
      = (stepOrders price (akeys st.order_book) st).order_fill := rfl

/-- C2: for every open limit order and every tick processed by
SimulationPortfolio.step(price), a limit buy order is matched (filled at the
tick price and removed from the open-order book) if and only if price is at
most its limit price, and a limit sell order is matched if and only if price
is at least its limit price. -/
theorem claim_C2_limit_match_iff (price : ℚ) (st : PortState)
    (hWF : BookWF st.order_book) :
    (∀ oid i h b lp,
      alookup st.order_book oid = some (Order.limitBuy i h b lp) →
        (alookup (PortState.step price st).order_book oid = none ↔ price ≤ lp)
        ∧ (price ≤ lp →
            (st.index, (⟨Order.limitBuy i h b lp, price,
                applyFee st.transaction_fee b / price⟩ : FilledOrder))
              ∈ (PortState.step price st).order_fill))
    ∧ (∀ oid i h q lp,
      alookup st.order_book oid = some (Order.limitSell i h q lp) →
        (alookup (PortState.step price st).order_book oid = none ↔ lp ≤ price)
        ∧ (lp ≤ price →
            (st.index, (⟨Order.limitSell i h q lp, price, q⟩ : FilledOrder))
              ∈ (PortState.step price st).order_fill)) := by
  constructor
  · intro oid i h b lp hlk
    have hres := stepOrders_limitBuy price (akeys st.order_book) st oid i h b lp
      hWF hWF.1 (alookup_some_mem_akeys hlk) hlk
    rw [step_order_book, step_order_fill]
    constructor
    · constructor
      · intro hnone
        by_contra hp
        rw [(hres.2 hp)] at hnone
        cases hnone
      · intro hp
        exact (hres.1 hp).1
    · intro hp
      exact (hres.1 hp).2
  · intro oid i h q lp hlk
    have hres := stepOrders_limitSell price (akeys st.order_book) st oid i h q lp
      hWF hWF.1 (alookup_some_mem_akeys hlk) hlk
    rw [step_order_book, step_order_fill]
    constructor
    · constructor
      · intro hnone
        by_contra hp
        rw [(hres.2 hp)] at hnone
        cases hnone
      · intro hp
        exact (hres.1 hp).1
    · intro hp
      exact (hres.1 hp).2

theorem claim_C2_witness :
    BookWF testPortfolio.order_book
    ∧ (alookup (PortState.step (29664/10) testPortfolio).order_book 0 = none
        ↔ (29664/10 : ℚ) ≤ 3000) :=
  ⟨⟨by decide, by decide⟩,
    ((claim_C2_limit_match_iff (29664/10) testPortfolio ⟨by decide, by decide⟩).1
      0 0 .noop 1000 3000 rfl).1⟩

/-! ## Claim C3: stop-buy conversion -/

/-- C3 counterexample: a stop buy with stop 10 and limit 20 sees the tick 15,
which is at or above the stop and already satisfies the limit rule, yet the
order is only converted to a resting limit buy (same id) and no fill happens
on that tick: the fill list stays empty and the converted order rests in the
book. -/
theorem claim_C3_counterexample :
    (10 : ℚ) ≤ 15 ∧ (15 : ℚ) ≤ 20
    ∧ alookup (PortState.step 15 stopPortfolio).order_book 0
        = some (Order.limitBuy 0 .noop 100 20)
    ∧ (PortState.step 15 stopPortfolio).order_fill = [] := by
  refine ⟨by norm_num, by norm_num, ?_, ?_⟩ <;>
    norm_num [PortState.step, stepOrders, stopPortfolio, akeys, alookup, aset,
      aerase, fillApply, fillCalc, applyFee]

/-- C3 amended: on the first tick at or above the stop price the stop buy is
replaced, under the same id, by a resting limit buy; it does not fill within
that same tick even when the tick also satisfies the limit rule (the snapshot
loop visits each id once per tick); on any subsequent tick the converted
order fills exactly per the limit rule. -/
theorem claim_C3_convert_then_wait (price price2 : ℚ) (st : PortState)
    (hWF : BookWF st.order_book) (oid i : ℕ) (h : Handler) (b sp lp : ℚ)
    (hlk : alookup st.order_book oid = some (Order.stopBuy i h b sp lp))
    (htrig : sp ≤ price) :
    alookup (PortState.step price st).order_book oid
        = some (Order.limitBuy i h b lp)
    ∧ (∃ fs, (PortState.step price st).order_fill = st.order_fill ++ fs
        ∧ ∀ e ∈ fs, e.2.order.oid ≠ oid)
    ∧ (price2 ≤ lp →
        alookup (PortState.step price2 (PortState.step price st)).order_book oid
          = none)
    ∧ (¬ price2 ≤ lp →
        alookup (PortState.step price2 (PortState.step price st)).order_book oid
          = some (Order.limitBuy i h b lp)) := by
  have hres := stepOrders_stopBuy price (akeys st.order_book) st oid i h b sp lp
    hWF hWF.1 (alookup_some_mem_akeys hlk) hlk
  obtain ⟨hbook1, fs, hfs, hfsid⟩ := hres.1 htrig
  have hWF1 : BookWF (PortState.step price st).order_book := by
    rw [step_order_book]
    exact (stepOrders_frame price (akeys st.order_book) st hWF).1
  have hlk1 : alookup (PortState.step price st).order_book oid
      = some (Order.limitBuy i h b lp) := by
    rw [step_order_book]
    exact hbook1
  have hres2 := stepOrders_limitBuy price2
    (akeys (PortState.step price st).order_book) (PortState.step price st)
    oid i h b lp hWF1 hWF1.1 (alookup_some_mem_akeys hlk1) hlk1
  refine ⟨hlk1, ⟨fs, by rw [step_order_fill]; exact hfs, hfsid⟩, ?_, ?_⟩
  · intro hp
    rw [step_order_book]
    exact (hres2.1 hp).1
  · intro hp
    rw [step_order_book]
    exact hres2.2 hp

theorem claim_C3_witness :
    BookWF stopPortfolio.order_book ∧ (10 : ℚ) ≤ 15
    ∧ alookup (PortState.step 15 stopPortfolio).order_book 0
        = some (Order.limitBuy 0 .noop 100 20) :=
  ⟨⟨by decide, by decide⟩, by norm_num,
    (claim_C3_convert_then_wait 15 18 stopPortfolio ⟨by decide, by decide⟩
      0 0 .noop 100 10 20 rfl (by norm_num)).1⟩

/-! ## Claim C4: cancel_order is silent on absent ids -/

/-- C4 counterexample: cancelling id 0 removes it; cancelling the same id a
second time returns normally with the state unchanged (the source function
has no failure path at all: its type carries no error), so the second call
silently succeeds instead of failing with OrderNotFound. -/
theorem claim_C4_counterexample :
    (cancel_order 0 testPortfolio).order_book = []
    ∧ cancel_order 0 (cancel_order 0 testPortfolio) = cancel_order 0 testPortfolio := by
  constructor <;>
    norm_num [cancel_order, testPortfolio, alookup, aerase]

/-- C4 amended: cancel\_order(id) removes the order when the id is present in
the open-order book and is a silent no-op when it is absent; in particular
calling it twice on the same id leaves the state of the first call untouched.
No OrderNotFound error exists in the code. -/
theorem claim_C4_cancel_silent (oid : ℕ) (st : PortState)
    (hnd : (akeys st.order_book).Nodup) :
    alookup (cancel_order oid st).order_book oid = none
    ∧ (∀ k, k ≠ oid →
        alookup (cancel_order oid st).order_book k = alookup st.order_book k)
    ∧ (alookup st.order_book oid = none → cancel_order oid st = st)
    ∧ cancel_order oid (cancel_order oid st) = cancel_order oid st := by
  rcases hlk : alookup st.order_book oid with _ | o
  · have hpres : cancel_order oid st = st := by
      rw [cancel_order, if_neg (by rw [hlk]; simp)]
    refine ⟨by rw [hpres, hlk], fun k _ => by rw [hpres], fun _ => hpres, by rw [hpres, hpres]⟩
  · have hbook : (cancel_order oid st).order_book = aerase st.order_book oid := by
      rw [cancel_order, if_pos (by rw [hlk]; simp)]
    have hnone : alookup (cancel_order oid st).order_book oid = none := by
      rw [hbook]
      exact alookup_aerase_self _ _ hnd
    refine ⟨hnone, ?_, ?_, ?_⟩
    · intro k hk
      rw [hbook]
      exact alookup_aerase_ne _ _ _ hk
    · intro habs
      exact Option.noConfusion habs
    · rw [cancel_order, if_neg (by rw [hnone]; simp)]

theorem claim_C4_witness :
    (akeys testPortfolio.order_book).Nodup
    ∧ cancel_order 0 (cancel_order 0 testPortfolio) = cancel_order 0 testPortfolio :=
  ⟨by decide, (claim_C4_cancel_silent 0 testPortfolio (by decide)).2.2.2⟩

/-! ## Claim C5: order placement performs no validation -/

/-- C5 counterexample: a limit buy with negative budget -5 is accepted: the
order is inserted into the book and a fresh id returned; no InvalidOrder
failure exists in the code (the placement functions have no failure path). -/
theorem claim_C5_counterexample :
    ((-5 : ℚ) ≤ 0)
    ∧ (place_limit_buy_order 3000 (-5) .noop testPortfolio).2.order_book
        = testPortfolio.order_book ++ [(1, Order.limitBuy 1 .noop (-5) 3000)]
    ∧ (place_limit_buy_order 3000 (-5) .noop testPortfolio).1 = 1 := by
  refine ⟨by norm_num, ?_, rfl⟩
  norm_num [place_limit_buy_order, testPortfolio]

/-- C5 amended: every order-placement call, with positive or non-positive
size alike, appends the order to the open-order book under a fresh id
(distinct from every open id) and returns that id, leaving the cash and
asset balances unchanged; the code performs no size validation and has no
InvalidOrder error. -/
theorem claim_C5_place_no_validation (lp b q sp : ℚ) (h : Handler)
    (st : PortState) (hfresh : ∀ p ∈ st.order_book, p.1 < st.next_id) :
    ((place_limit_buy_order lp b h st).2.order_book
        = st.order_book ++ [(st.next_id, Order.limitBuy st.next_id h b lp)]
      ∧ (place_limit_buy_order lp b h st).1 = st.next_id
      ∧ (place_limit_buy_order lp b h st).2.budget = st.budget
      ∧ (place_limit_buy_order lp b h st).2.quantity = st.quantity)
    ∧ ((place_stop_buy_order sp lp b h st).2.order_book
        = st.order_book ++ [(st.next_id, Order.stopBuy st.next_id h b sp lp)]
      ∧ (place_stop_buy_order sp lp b h st).2.budget = st.budget)
    ∧ ((place_limit_sell_order lp q h st).2.order_book
        = st.order_book ++ [(st.next_id, Order.limitSell st.next_id h q lp)]
      ∧ (place_limit_sell_order lp q h st).2.quantity = st.quantity)
    ∧ ((place_stop_sell_order sp lp q h st).2.order_book
        = st.order_book ++ [(st.next_id, Order.stopSell st.next_id h q sp lp)])
    ∧ ((place_market_buy_order b h st).2.order_book
        = st.order_book ++ [(st.next_id, Order.marketBuy st.next_id h b)])
    ∧ ((place_market_sell_order q h st).2.order_book
        = st.order_book ++ [(st.next_id, Order.marketSell st.next_id h q)])
    ∧ alookup st.order_book st.next_id = none := by
  refine ⟨⟨rfl, rfl, rfl, rfl⟩, ⟨rfl, rfl⟩, ⟨rfl, rfl⟩, rfl, rfl, rfl, ?_⟩
  rw [alookup_eq_none_iff]
  intro hmem
  obtain ⟨v, hv⟩ := mem_akeys.mp hmem
  exact absurd (hfresh _ hv) (by simp)

theorem claim_C5_witness :
    (∀ p ∈ testPortfolio.order_book, p.1 < testPortfolio.next_id)
    ∧ (place_limit_buy_order 3000 (-5) .noop testPortfolio).2.order_book
        = testPortfolio.order_book
          ++ [(testPortfolio.next_id,
               Order.limitBuy testPortfolio.next_id .noop (-5) 3000)] :=
  ⟨by decide,
    (claim_C5_place_no_validation 3000 (-5) 2 2900 .noop testPortfolio
      (by decide)).1.1⟩

/-! ## Claim C6: no spontaneous balance changes -/

/-- C6: for every tick processed by SimulationPortfolio.step(price), if the
tick records no fill then the cash balance and the asset balance are both
unchanged: net worth changes only through matched fills, never
spontaneously. -/
theorem claim_C6_no_fill_no_balance_change (price : ℚ) (st : PortState)
    (hnf : (PortState.step price st).order_fill = st.order_fill) :
    (PortState.step price st).budget = st.budget
    ∧ (PortState.step price st).quantity = st.quantity :=
  stepOrders_no_fill_balances price (akeys st.order_book) st hnf

theorem claim_C6_witness :
    (PortState.step 3100 testPortfolio).order_fill = testPortfolio.order_fill
    ∧ (PortState.step 3100 testPortfolio).budget = testPortfolio.budget
    ∧ (PortState.step 3100 testPortfolio).quantity = testPortfolio.quantity := by
  have hnf : (PortState.step 3100 testPortfolio).order_fill
      = testPortfolio.order_fill := by
    norm_num [PortState.step, stepOrders, testPortfolio, akeys, alookup]
  have hres := claim_C6_no_fill_no_balance_change 3100 testPortfolio hnf
  exact ⟨hnf, hres⟩

/-! ## Claim C8: buy-fill arithmetic and the limit-buy scenario -/

/-- C8: a buy order filled at price p with budget b under a proportional fee
rate f debits the cash balance by exactly b and credits the asset balance by
exactly b * (1 - f) / p.  In the unit-test scenario (cash 1000, fee 0.005,
limit buy at 3000 for the full budget, ticks 3026.98, 3008.71, 2966.4) the
order is still open after the first two ticks, fills at the first tick at or
below 3000 (namely 2966.4), and leaves quantity 1000 * (1 - 0.005) / 2966.4
and cash 0. -/
theorem claim_C8_buy_fill_arithmetic (f price b lp : ℚ) (i : ℕ) (h : Handler)
    (st : PortState) (hfee : st.transaction_fee = .rate f)
    (hf0 : 0 ≤ f) (hf1 : f < 1) :
    ((fillCalc price (Order.limitBuy i h b lp) st).2.budget = st.budget - b
      ∧ (fillCalc price (Order.limitBuy i h b lp) st).2.quantity
          = st.quantity + b * (1 - f) / price)
    ∧ (runTicks [302698/100, 300871/100] testPortfolio).order_book
        = testPortfolio.order_book
    ∧ (runTicks [302698/100, 300871/100, 29664/10] testPortfolio).budget = 0
    ∧ (runTicks [302698/100, 300871/100, 29664/10] testPortfolio).quantity
        = 1000 * (1 - 1/200) / (29664/10) := by
  refine ⟨⟨?_, ?_⟩, ?_, ?_, ?_⟩
  · simp [fillCalc, applyFee, hfee]
  · simp [fillCalc, applyFee, hfee]
  · norm_num [runTicks, PortState.step, stepOrders, testPortfolio, akeys,
      alookup, aerase, fillApply, fillCalc, applyFee]
  · norm_num [runTicks, PortState.step, stepOrders, testPortfolio, akeys,
      alookup, aerase, fillApply, fillCalc, applyFee]
  · norm_num [runTicks, PortState.step, stepOrders, testPortfolio, akeys,
      alookup, aerase, fillApply, fillCalc, applyFee]

theorem claim_C8_witness :
    testPortfolio.transaction_fee = Fee.rate (1/200)
    ∧ (0 : ℚ) ≤ 1/200 ∧ (1/200 : ℚ) < 1
    ∧ (fillCalc (29664/10) (Order.limitBuy 0 .noop 1000 3000) testPortfolio).2.budget
        = testPortfolio.budget - 1000 :=
  ⟨rfl, by norm_num, by norm_num,
    ((claim_C8_buy_fill_arithmetic (1/200) (29664/10) 1000 3000 0 .noop
      testPortfolio rfl (by norm_num) (by norm_num)).1).1⟩

/-! ## The construction loop -/

theorem aset_eq_append_of_not_mem {β : Type} (l : List (ℕ × β)) (k : ℕ) (v : β)
    (hk : k ∉ akeys l) : aset l k v = l ++ [(k, v)] := by
  induction l with
  | nil => rfl
  | cons p t ih =>
      obtain ⟨a, b⟩ := p
      rw [akeys_cons, List.mem_cons] at hk
      push_neg at hk
      rw [aset_cons, if_neg (fun he => hk.1 he.symm), List.cons_append, ih hk.2]

theorem stopChain_length (n : ℕ) (B : ℚ) :
    ∀ (bs : List ℚ) (nid : ℕ) (lo : ℚ), (stopChain n B nid lo bs).length = bs.length := by
  intro bs
  induction bs with
  | nil => intro nid lo; rfl
  | cons hi rest ih => intro nid lo; simp [stopChain, ih]

theorem stopChain_get (n : ℕ) (B : ℚ) :
    ∀ (bs : List ℚ) (nid : ℕ) (lo : ℚ) (j : ℕ), j < bs.length →
    ∃ bj, (lo :: bs)[j]? = some bj ∧
      (stopChain n B nid lo bs)[j]?
        = some (nid + j, Order.stopBuy (nid + j) .buyCb (B / (n : ℚ)) (bj - 50) bj) := by
  intro bs
  induction bs with
  | nil =>
      intro nid lo j hj
      cases hj
  | cons hi rest ih =>
      intro nid lo j hj
      match j with
      | 0 => exact ⟨lo, by simp, by simp [stopChain]⟩
      | j + 1 =>
          obtain ⟨bj, hbj, hchain⟩ := ih (nid + 1) hi j (by simpa using hj)
          refine ⟨bj, by simpa using hbj, ?_⟩
          have harith : nid + 1 + j = nid + (j + 1) := by omega
          rw [show (stopChain n B nid lo (hi :: rest))[j + 1]?
              = (stopChain n B (nid + 1) hi rest)[j]? by simp [stopChain]]
          rw [hchain, harith]

theorem levelChain_length (n : ℕ) (B : ℚ) :
    ∀ (bs : List ℚ) (nid : ℕ) (lo : ℚ), (levelChain n B nid lo bs).length = bs.length := by
  intro bs
  induction bs with
  | nil => intro nid lo; rfl
  | cons hi rest ih => intro nid lo; simp [levelChain, ih]

theorem levelChain_alloc (n : ℕ) (B : ℚ) :
    ∀ (bs : List ℚ) (nid : ℕ) (lo : ℚ),
    ∀ lvl ∈ levelChain n B nid lo bs, lvl.budget = B / (n : ℚ) ∧ lvl.quantity = 0 := by
  intro bs
  induction bs with
  | nil => intro nid lo lvl hm; cases hm
  | cons hi rest ih =>
      intro nid lo lvl hm
      rcases List.mem_cons.mp hm with h | h
      · rw [h]
        exact ⟨rfl, rfl⟩
      · exact ih (nid + 1) hi lvl h

/-- One unfolding of the construction loop. -/
theorem buildLevels_cons (n : ℕ) (lo hi : ℚ) (rest : List ℚ) (lvls : Array Level)
    (m : List (ℕ × ℕ)) (port : PortState) :
    buildLevels n lo (hi :: rest) lvls m port
      = buildLevels n hi rest
          (lvls.push
            { budget := port.budget / (n : ℚ)
              quantity := 0
              lower_bound := lo
              upper_bound := .fin hi
              order_ids := [port.next_id] })
          (aset m port.next_id lvls.size)
          (place_stop_buy_order (lo - 50) lo (port.budget / (n : ℚ)) .buyCb port).2 := rfl

/-- Closed form of the construction loop. -/
theorem buildLevels_spec (n : ℕ) :
    ∀ (bs : List ℚ) (lo : ℚ) (lvls : Array Level) (m : List (ℕ × ℕ))
      (port : PortState), (∀ k ∈ akeys m, k < port.next_id) →
    (buildLevels n lo bs lvls m port).1.toList
        = lvls.toList ++ levelChain n port.budget port.next_id lo bs
    ∧ (buildLevels n lo bs lvls m port).2.1
        = m ++ mapChain port.next_id lvls.size bs
    ∧ (buildLevels n lo bs lvls m port).2.2.1.order_book
        = port.order_book ++ stopChain n port.budget port.next_id lo bs
    ∧ (buildLevels n lo bs lvls m port).2.2.1.next_id = port.next_id + bs.length
    ∧ (buildLevels n lo bs lvls m port).2.2.1.budget = port.budget
    ∧ (buildLevels n lo bs lvls m port).2.2.1.quantity = port.quantity
    ∧ (buildLevels n lo bs lvls m port).2.2.1.transaction_fee = port.transaction_fee
    ∧ (buildLevels n lo bs lvls m port).2.2.1.order_fill = port.order_fill
    ∧ (buildLevels n lo bs lvls m port).2.2.1.index = port.index
    ∧ (buildLevels n lo bs lvls m port).2.2.2 = bs.getLastD lo := by
  intro bs
  induction bs with
  | nil =>
      intro lo lvls m port hm
      refine ⟨by simp [buildLevels, levelChain], by simp [buildLevels, mapChain],
        by simp [buildLevels, stopChain], by simp [buildLevels],
        rfl, rfl, rfl, rfl, rfl, rfl⟩
  | cons hi rest ih =>
      intro lo lvls m port hm
      have hfresh : port.next_id ∉ akeys m := fun hmem => absurd (hm _ hmem) (by simp)
      have hset : aset m port.next_id lvls.size = m ++ [(port.next_id, lvls.size)] :=
        aset_eq_append_of_not_mem m port.next_id lvls.size hfresh
      have hm' : ∀ k ∈ akeys (aset m port.next_id lvls.size),
          k < port.next_id + 1 := by
        intro k hk
        rw [hset, akeys_append] at hk
        rcases List.mem_append.mp hk with h | h
        · exact Nat.lt_succ_of_lt (hm k h)
        · rw [akeys_cons] at h
          rcases List.mem_cons.mp h with h | h
          · omega
          · cases h
      obtain ⟨h1, h2, h3, h4, h5, h6, h7, h8, h9, h10⟩ := ih hi
        (lvls.push
          { budget := port.budget / (n : ℚ)
            quantity := 0
            lower_bound := lo
            upper_bound := .fin hi
            order_ids := [port.next_id] })
        (aset m port.next_id lvls.size)
        (place_stop_buy_order (lo - 50) lo (port.budget / (n : ℚ)) .buyCb port).2
        hm'
      refine ⟨?_, ?_, ?_, ?_, ?_, ?_, ?_, ?_, ?_, ?_⟩
      · rw [buildLevels_cons]
        rw [h1]
        simp [place_stop_buy_order, levelChain, Array.push_data]
      · rw [buildLevels_cons]
        rw [h2, hset]
        simp [place_stop_buy_order, mapChain, Array.size_push]
      · rw [buildLevels_cons]
        rw [h3]
        simp [place_stop_buy_order, stopChain]
      · rw [buildLevels_cons]
        rw [h4]
        simp [place_stop_buy_order]
        omega
      · exact h5
      · exact h6
      · exact h7
      · exact h8
      · exact h9
      · rw [buildLevels_cons]
        rw [h10, List.getLastD_cons]

/-- One unfolding of \_construct\_linked\_list on a nonempty boundary list. -/
theorem constructGrid_cons (port : PortState) (b0 : ℚ) (rest : List ℚ) :
    constructGrid port (b0 :: rest)
      = some
        { port := (buildLevels rest.length b0 rest
            (#[{ budget := 0, quantity := 0, lower_bound := 0,
                 upper_bound := .fin b0, order_ids := [] }]) [] port).2.2.1
          levels := (buildLevels rest.length b0 rest
            (#[{ budget := 0, quantity := 0, lower_bound := 0,
                 upper_bound := .fin b0, order_ids := [] }]) [] port).1.push
            { budget := 0, quantity := 0,
              lower_bound := (buildLevels rest.length b0 rest
                (#[{ budget := 0, quantity := 0, lower_bound := 0,
                     upper_bound := .fin b0, order_ids := [] }]) [] port).2.2.2,
              upper_bound := .inf, order_ids := [] }
          current := (buildLevels rest.length b0 rest
            (#[{ budget := 0, quantity := 0, lower_bound := 0,
                 upper_bound := .fin b0, order_ids := [] }]) [] port).1.size - 1
          order_id_to_level_map := (buildLevels rest.length b0 rest
            (#[{ budget := 0, quantity := 0, lower_bound := 0,
                 upper_bound := .fin b0, order_ids := [] }]) [] port).2.1 } := rfl

/-- Closed form of \_construct\_linked\_list. -/
theorem constructGrid_spec (port : PortState) (b0 : ℚ) (rest : List ℚ) :
    ∃ gs, constructGrid port (b0 :: rest) = some gs
    ∧ gs.levels.toList
        = ({ budget := 0, quantity := 0, lower_bound := 0,
             upper_bound := .fin b0, order_ids := [] } : Level)
            :: (levelChain rest.length port.budget port.next_id b0 rest
                ++ [{ budget := 0, quantity := 0, lower_bound := rest.getLastD b0,
                      upper_bound := .inf, order_ids := [] }])
    ∧ gs.port.order_book
        = port.order_book ++ stopChain rest.length port.budget port.next_id b0 rest
    ∧ gs.port.next_id = port.next_id + rest.length
    ∧ gs.port.budget = port.budget
    ∧ gs.port.quantity = port.quantity
    ∧ gs.port.transaction_fee = port.transaction_fee
    ∧ gs.port.order_fill = port.order_fill
    ∧ gs.port.index = port.index
    ∧ gs.order_id_to_level_map = mapChain port.next_id 1 rest
    ∧ gs.current = rest.length := by
  obtain ⟨h1, h2, h3, h4, h5, h6, h7, h8, h9, h10⟩ :=
    buildLevels_spec rest.length rest b0
      (#[{ budget := 0, quantity := 0, lower_bound := 0,
           upper_bound := .fin b0, order_ids := [] }]) [] port
      (by intro k hk; cases hk)
  have hsize : (buildLevels rest.length b0 rest
      (#[{ budget := 0, quantity := 0, lower_bound := 0,
           upper_bound := .fin b0, order_ids := [] }]) [] port).1.size
      = rest.length + 1 := by
    have hlen := congrArg List.length h1
    simp only [Array.length_toList, List.length_append] at hlen
    rw [hlen, levelChain_length]
    simp only [List.length_singleton]
    omega
  rw [constructGrid_cons]
  refine ⟨_, rfl, ?_, h3, h4, h5, h6, h7, h8, h9, ?_, ?_⟩
  · show ((buildLevels _ _ _ _ _ _).1.push _).toList = _
    rw [Array.push_data, h1, h10]
    simp
  · show (buildLevels _ _ _ _ _ _).2.1 = _
    rw [h2]
    simp
  · show (buildLevels _ _ _ _ _ _).1.size - 1 = _
    rw [hsize]
    omega

/-! ## Claim C7: the constructed grid -/

/-- C7: constructing a GridStrategy from an ascending list of m boundary
prices over a fresh portfolio with total budget B yields a chain of m + 1
levels: two zero-allocation sentinel end levels around m - 1 finite levels
each seeded with budget B / (m - 1); and exactly m - 1 stop-buy orders are
open, one per boundary except the last, each with budget B / (m - 1) and
limit at its boundary price (stop 50 below it). -/
theorem claim_C7_construction (port : PortState) (B : ℚ) (bounds : List ℚ)
    (b0 : ℚ) (rest : List ℚ) (hb : bounds = b0 :: rest)
    (hbook : port.order_book = []) (hbud : port.budget = B) :
    ∃ gs, constructGrid port bounds = some gs
    ∧ gs.levels.size = bounds.length + 1
    ∧ gs.levels.toList.head?.map (fun lvl => (lvl.budget, lvl.quantity))
        = some (0, 0)
    ∧ gs.levels.toList.getLast?.map (fun lvl => (lvl.budget, lvl.quantity))
        = some (0, 0)
    ∧ (∀ j, 1 ≤ j → j ≤ bounds.length - 1 →
        gs.levels.toList[j]?.map (fun lvl => (lvl.budget, lvl.quantity))
          = some (B / ((bounds.length - 1 : ℕ) : ℚ), 0))
    ∧ gs.port.order_book.length = bounds.length - 1
    ∧ (∀ j, j < bounds.length - 1 → ∃ bj, bounds[j]? = some bj ∧
        gs.port.order_book[j]?
          = some (port.next_id + j,
              Order.stopBuy (port.next_id + j) .buyCb
                (B / ((bounds.length - 1 : ℕ) : ℚ)) (bj - 50) bj)) := by
  subst hb hbud
  have hn : (b0 :: rest).length - 1 = rest.length := by simp
  obtain ⟨gs, hcons, hlvls, hob, _, _, _, _, _, _, _⟩ :=
    constructGrid_spec port b0 rest
  rw [hbook] at hob
  simp only [List.nil_append] at hob
  refine ⟨gs, hcons, ?_, ?_, ?_, ?_, ?_, ?_⟩
  · have hlen := congrArg List.length hlvls
    rw [Array.length_toList] at hlen
    rw [hlen]
    simp [levelChain_length]
  · rw [hlvls]
    rfl
  · rw [hlvls, ← List.cons_append, List.getLast?_concat]
    rfl
  · intro j h1j hjr
    rw [hn] at hjr
    obtain ⟨k, rfl⟩ : ∃ k, j = k + 1 := ⟨j - 1, by omega⟩
    have hk : k < (levelChain rest.length port.budget port.next_id b0 rest).length := by
      rw [levelChain_length]
      omega
    rw [hlvls, List.getElem?_cons_succ, List.getElem?_append_left hk]
    obtain ⟨lvl, hlvl⟩ : ∃ lvl,
        (levelChain rest.length port.budget port.next_id b0 rest)[k]? = some lvl :=
      ⟨_, (List.getElem?_eq_some_getElem_iff _ _ hk).mpr trivial⟩
    rw [hlvl]
    obtain ⟨hb, hq⟩ := levelChain_alloc rest.length port.budget rest port.next_id b0
      lvl (List.getElem?_mem hlvl)
    rw [hn]
    simp [hb, hq]
  · rw [hob, stopChain_length, hn]
  · intro j hj
    rw [hn] at hj
    obtain ⟨bj, hbj, hchain⟩ := stopChain_get rest.length port.budget rest
      port.next_id b0 j hj
    refine ⟨bj, hbj, ?_⟩
    rw [hob, hchain, hn]

theorem claim_C7_witness :
    ([3000, 3150, 6615/2] : List ℚ) = 3000 :: [3150, 6615/2]
    ∧ gridPortfolio10000.order_book = [] ∧ gridPortfolio10000.budget = 10000
    ∧ (∃ gs, constructGrid gridPortfolio10000 [3000, 3150, 6615/2] = some gs
        ∧ gs.port.order_book.length = ([3000, 3150, 6615/2] : List ℚ).length - 1)
    ∧ (∃ gs2, constructGrid gridPortfolio10000 [3000, 3150, 6615/2] = some gs2
        ∧ gs2.port.order_book
            = [(0, Order.stopBuy 0 .buyCb 5000 2950 3000),
               (1, Order.stopBuy 1 .buyCb 5000 3100 3150)]) := by
  refine ⟨rfl, rfl, rfl, ?_, ?_⟩
  · obtain ⟨gs, hcons, _, _, _, _, hlen, _⟩ :=
      claim_C7_construction gridPortfolio10000 10000 [3000, 3150, 6615/2]
        3000 [3150, 6615/2] rfl rfl rfl
    exact ⟨gs, hcons, hlen⟩
  · refine ⟨_, rfl, ?_⟩
    norm_num [constructGrid, buildLevels, place_stop_buy_order, aset,
      gridPortfolio10000]

/-! ## Claim C10: the advance and retreat loops -/

/-- The advance loop returns a valid level index for every price when the
last level's upper bound is math.inf: the pointer never runs off the tail. -/
theorem advanceFrom_some (levels : Array Level) (price : ℚ)
    (htail : ∀ i, ∀ h : i < levels.size, i + 1 = levels.size →
      (levels[i]).upper_bound = UBound.inf) :
    ∀ idx, idx < levels.size →
      ∃ j, advanceFrom levels price idx = some j ∧ j < levels.size := by
  have main : ∀ fuel idx, levels.size - idx = fuel → idx < levels.size →
      ∃ j, advanceFrom levels price idx = some j ∧ j < levels.size := by
    intro fuel
    induction fuel using Nat.strong_induction_on with
    | _ fuel ih =>
        intro idx hfuel hidx
        rw [advanceFrom, dif_pos hidx]
        by_cases hub : ubLt (levels[idx]).upper_bound price
        · rw [if_pos hub]
          have hlt : idx + 1 < levels.size := by
            rcases Nat.lt_or_ge (idx + 1) levels.size with hl | hl
            · exact hl
            · have heq : idx + 1 = levels.size := by omega
              rw [htail idx hidx heq] at hub
              simp [ubLt] at hub
          exact ih (levels.size - (idx + 1)) (by omega) (idx + 1) rfl hlt
        · rw [if_neg hub]
          exact ⟨idx, rfl, hidx⟩
  intro idx
  exact main (levels.size - idx) idx rfl

/-- The retreat loop returns a valid level index for every nonnegative price
when the head level's lower bound is 0: the pointer never runs off the
head. -/
theorem retreatFrom_some (levels : Array Level) (price : ℚ) (hp : 0 ≤ price)
    (hhead : ∀ h : 0 < levels.size, (levels[0]).lower_bound = 0) :
    ∀ idx, idx < levels.size →
      ∃ j, retreatFrom levels price idx = some j ∧ j < levels.size := by
  intro idx
  induction idx with
  | zero =>
      intro h0
      rw [retreatFrom, dif_pos h0]
      rw [if_neg (by rw [hhead h0]; exact not_lt.mpr hp)]
      exact ⟨0, rfl, h0⟩
  | succ j ih =>
      intro hidx
      rw [retreatFrom, dif_pos hidx]
      by_cases hlow : price < (levels[j + 1]).lower_bound
      · rw [if_pos hlow]
        exact ih (by omega)
      · rw [if_neg hlow]
        exact ⟨j + 1, rfl, hidx⟩

/-- The level chain produced by construction has head lower bound 0, tail
upper bound math.inf, and a valid current pointer. -/
theorem constructGrid_bounds (port : PortState) (b0 : ℚ) (rest : List ℚ)
    (gs : GridState) (hcons : constructGrid port (b0 :: rest) = some gs) :
    (∀ h : 0 < gs.levels.size, (gs.levels[0]).lower_bound = 0)
    ∧ (∀ i, ∀ h : i < gs.levels.size, i + 1 = gs.levels.size →
        (gs.levels[i]).upper_bound = UBound.inf)
    ∧ gs.current < gs.levels.size := by
  obtain ⟨gs2, hcons2, hlvls, _, _, _, _, _, _, _, hcur⟩ :=
    constructGrid_spec port b0 rest
  rw [hcons2] at hcons
  obtain rfl : gs2 = gs := Option.some_injective _ hcons
  have hsize : gs2.levels.size = rest.length + 2 := by
    have hlen := congrArg List.length hlvls
    rw [Array.length_toList] at hlen
    rw [hlen]
    simp [levelChain_length]
  refine ⟨?_, ?_, ?_⟩
  · intro h0
    have h00 : gs2.levels[0]?
        = some ({ budget := 0, quantity := 0, lower_bound := 0,
                  upper_bound := .fin b0, order_ids := [] } : Level) := by
      rw [show (gs2.levels[0]? : Option Level) = gs2.levels.toList[0]? from rfl, hlvls]
      simp
    rw [Array.getElem?_lt _ h0] at h00
    rw [Option.some_injective _ h00]
  · intro i hi hend
    have hieq : i = gs2.levels.size - 1 := by omega
    have hgl : gs2.levels.toList[i]?
        = some ({ budget := 0, quantity := 0, lower_bound := rest.getLastD b0,
                  upper_bound := .inf, order_ids := [] } : Level) := by
      have h1 : gs2.levels.toList.getLast?
          = some ({ budget := 0, quantity := 0, lower_bound := rest.getLastD b0,
                    upper_bound := .inf, order_ids := [] } : Level) := by
        rw [hlvls, ← List.cons_append, List.getLast?_concat]
      rw [List.getLast?_eq_getElem?, Array.length_toList] at h1
      rw [hieq]
      exact h1
    have h00 : gs2.levels[i]? = gs2.levels.toList[i]? := rfl
    rw [Array.getElem?_lt _ hi, hgl] at h00
    rw [Option.some_injective _ h00]
  · rw [hcur.2, hsize]
    omega

/-- C10: for every price at least 0, the two pointer-moving loops of
GridStrategy.step terminate on a constructed grid without running off either
end of the chain: the advance loop stops at or before the tail sentinel
(upper bound math.inf) and the retreat loop at or before the head sentinel
(lower bound 0), each returning a valid current-level index. -/
theorem claim_C10_step_pointer_safe (port : PortState) (b0 : ℚ) (rest : List ℚ)
    (gs : GridState) (hcons : constructGrid port (b0 :: rest) = some gs)
    (price : ℚ) (hp : 0 ≤ price) :
    gs.current < gs.levels.size
    ∧ (∀ idx, idx < gs.levels.size →
        ∃ j, advanceFrom gs.levels price idx = some j ∧ j < gs.levels.size)
    ∧ (∀ idx, idx < gs.levels.size →
        ∃ j, retreatFrom gs.levels price idx = some j ∧ j < gs.levels.size) := by
  obtain ⟨hhead, htail, hcur⟩ := constructGrid_bounds port b0 rest gs hcons
  exact ⟨hcur, advanceFrom_some gs.levels price htail,
    retreatFrom_some gs.levels price hp hhead⟩

theorem claim_C10_witness :
    (∃ gs, constructGrid gridPortfolio [100, 200] = some gs
      ∧ (0 : ℚ) ≤ 1000000
      ∧ gs.current < gs.levels.size
      ∧ (∃ j, advanceFrom gs.levels 1000000 gs.current = some j
          ∧ j < gs.levels.size)
      ∧ (∃ j, retreatFrom gs.levels 0 gs.current = some j
          ∧ j < gs.levels.size)) := by
  obtain ⟨gs, hcons, _⟩ := constructGrid_spec gridPortfolio 100 [200]
  have h1 := claim_C10_step_pointer_safe gridPortfolio 100 [200] gs hcons
    1000000 (by norm_num)
  have h2 := claim_C10_step_pointer_safe gridPortfolio 100 [200] gs hcons
    0 le_rfl
  exact ⟨gs, hcons, by norm_num, h1.1, h1.2.1 gs.current h1.1,
    h2.2.2 gs.current h1.1⟩

/-! ## Claim C9: the buy callback -/

/-- C9 counterexample: in the two-boundary grid, after the stop buy converts
and then fills (the fill list records exactly one buy fill), the buy callback
has updated the level and the maps, but the open-order book is empty: no
stop-sell order was placed at the level's upper boundary, contradicting the
claimed immediate re-arming. -/
theorem claim_C9_counterexample :
    constructGrid gridPortfolio [100, 200] = some gridEx0
    ∧ GridState.step 60 gridEx0 = some gridEx1
    ∧ GridState.step 60 gridEx1 = some gridEx2
    ∧ gridEx2.port.order_fill
        = [(1, ⟨Order.limitBuy 0 .buyCb 1000 100, 60, 50/3⟩)]
    ∧ gridEx2.port.order_book = [] := by
  refine ⟨?_, ?_, ?_, rfl, rfl⟩
  · norm_num [constructGrid, buildLevels, place_stop_buy_order, gridPortfolio,
      aset, gridEx0, lvlHead, lvlMid, lvlTail]
  · norm_num [GridState.step, gridEx0, gridEx1, lvlHead, lvlMid, lvlTail, ubLt,
      retreatFrom, gridPortStep, gridStepOrders, akeys, alookup, aset]
  · norm_num [GridState.step, gridEx1, gridEx2, lvlHead, lvlMid, lvlTail, ubLt,
      retreatFrom, gridPortStep, gridStepOrders, gridFill, runHandler,
      buyCallback, fillCalc, applyFee, akeys, alookup, aerase,
      Order.fillHandler, Order.oid, Order.budgetAttr, Array.set, List.set]

/-- C9 amended: for every buy fill delivered to the buy callback, the owning
level's budget is debited by the order's budget, its quantity is credited by
the filled amount, and the order id is dropped from the id-to-level map and
from the level's id list; the callback places no follow-up order and leaves
the portfolio untouched (in particular, no stop-sell order is placed). -/
theorem claim_C9_buy_callback (fo : FilledOrder) (gs : GridState) (li : ℕ)
    (b : ℚ) (hmap : alookup gs.order_id_to_level_map fo.order.oid = some li)
    (hli : li < gs.levels.size) (hb : fo.order.budgetAttr = some b)
    (hmem : fo.order.oid ∈ (gs.levels[li]).order_ids)
    (hnd : (akeys gs.order_id_to_level_map).Nodup) :
    ∃ gs2, buyCallback fo gs = some gs2
    ∧ gs2.levels.size = gs.levels.size
    ∧ (∀ h2 : li < gs2.levels.size,
        (gs2.levels[li]).budget = (gs.levels[li]).budget - b
        ∧ (gs2.levels[li]).quantity = (gs.levels[li]).quantity + fo.quantity
        ∧ (gs2.levels[li]).order_ids = (gs.levels[li]).order_ids.erase fo.order.oid)
    ∧ alookup gs2.order_id_to_level_map fo.order.oid = none
    ∧ gs2.port = gs.port := by
  rw [buyCallback, hmap]
  simp only [hb]
  rw [dif_pos hli, if_pos hmem]
  refine ⟨_, rfl, by simp, ?_, ?_, rfl⟩
  · intro h2
    refine ⟨?_, ?_, ?_⟩ <;>
      simp [Array.get_eq_getElem, Array.getElem_set_eq]
  · exact alookup_aerase_self _ _ hnd

theorem claim_C9_witness :
    alookup gridEx1.order_id_to_level_map
        (Order.limitBuy 0 .buyCb 1000 100).oid = some 1
    ∧ (∃ gs2, buyCallback ⟨Order.limitBuy 0 .buyCb 1000 100, 60, 50/3⟩ gridEx1
          = some gs2
        ∧ gs2.levels.size = gridEx1.levels.size
        ∧ (∀ h2 : 1 < gs2.levels.size,
            (gs2.levels[1]).budget = (gridEx1.levels[1]).budget - 1000
            ∧ (gs2.levels[1]).quantity = (gridEx1.levels[1]).quantity + 50/3
            ∧ (gs2.levels[1]).order_ids
                = (gridEx1.levels[1]).order_ids.erase
                    (Order.limitBuy 0 .buyCb 1000 100).oid)
        ∧ alookup gs2.order_id_to_level_map
            (Order.limitBuy 0 .buyCb 1000 100).oid = none
        ∧ gs2.port = gridEx1.port) :=
  ⟨rfl, claim_C9_buy_callback ⟨Order.limitBuy 0 .buyCb 1000 100, 60, 50/3⟩
    gridEx1 1 1000 rfl (by decide) rfl (by decide) (by decide)⟩

/-! ## Claim C1: consistency of the grid state -/

theorem alookup_of_mem_nodup {β : Type} {l : List (ℕ × β)} {k : ℕ} {v : β}
    (hnd : (akeys l).Nodup) (hm : (k, v) ∈ l) : alookup l k = some v := by
  induction l with
  | nil => cases hm
  | cons p t ih =>
      obtain ⟨a, b⟩ := p
      rw [akeys_cons, List.nodup_cons] at hnd
      rcases List.mem_cons.mp hm with he | ht
      · obtain ⟨rfl, rfl⟩ := Prod.mk.injEq .. ▸ he
        injection he with h1 h2
        rw [alookup_cons, if_pos rfl]
      · rw [alookup_cons]
        by_cases hak : a = k
        · subst hak
          exact absurd (mem_akeys.mpr ⟨v, ht⟩) hnd.1
        · rw [if_neg hak]
          exact ih hnd.2 ht

theorem alookup_append_right {β : Type} (l1 l2 : List (ℕ × β)) (k : ℕ)
    (hk : k ∉ akeys l1) : alookup (l1 ++ l2) k = alookup l2 k := by
  induction l1 with
  | nil => rfl
  | cons p t ih =>
      obtain ⟨a, b⟩ := p
      rw [akeys_cons, List.mem_cons] at hk
      push_neg at hk
      rw [List.cons_append, alookup_cons, if_neg (fun he => hk.1 he.symm)]
      exact ih hk.2

/-- Consistency only depends on the book, the fresh-id counter, the levels
and the map. -/
theorem consistent_of_eq (gs gs' : GridState)
    (hb : gs'.port.order_book = gs.port.order_book)
    (hn : gs'.port.next_id = gs.port.next_id)
    (hl : gs'.levels = gs.levels)
    (hm : gs'.order_id_to_level_map = gs.order_id_to_level_map)
    (h : Consistent gs) : Consistent gs' := by
  unfold Consistent PortWF BookWF at h ⊢
  rw [hb, hn, hl, hm]
  exact h

/-- Deleting an unmapped id from the book (and rewriting the fill list)
preserves consistency. -/
theorem consistent_erase_fill (gs : GridState) (oid : ℕ)
    (fe : List (ℕ × FilledOrder)) (h : Consistent gs)
    (hnm : alookup gs.order_id_to_level_map oid = none) :
    Consistent { gs with port := { gs.port with
      order_book := aerase gs.port.order_book oid, order_fill := fe } } := by
  obtain ⟨⟨⟨hbnd, hbid⟩, hfr⟩, hnd, h5, h6, h7, h8⟩ := h
  refine ⟨⟨⟨akeys_aerase_nodup _ _ hbnd, fun p hp => hbid p (mem_aerase hp)⟩,
    fun p hp => hfr p (mem_aerase hp)⟩, hnd, h5, h6, h7, ?_⟩
  intro k li hk
  obtain ⟨o, ho, hh⟩ := h8 k li hk
  have hkne : k ≠ oid := by
    intro he
    rw [he, hnm] at hk
    exact Option.noConfusion hk
  exact ⟨o, by rw [show ({ gs with port := { gs.port with
    order_book := aerase gs.port.order_book oid,
    order_fill := fe } } : GridState).port.order_book
      = aerase gs.port.order_book oid from rfl,
    alookup_aerase_ne _ _ _ hkne]; exact ho, hh⟩

/-- Removing a mapped id from the map and from its level id list (with any
new budget and quantity on that level) preserves consistency. -/
theorem consistent_remove (gs : GridState) (oid li : ℕ) (hli : li < gs.levels.size)
    (hC : Consistent gs) (hmap : alookup gs.order_id_to_level_map oid = some li)
    (bud qty : ℚ) :
    Consistent { gs with
      levels := gs.levels.set ⟨li, hli⟩
        { budget := bud, quantity := qty,
          lower_bound := (gs.levels[li]).lower_bound,
          upper_bound := (gs.levels[li]).upper_bound,
          order_ids := (gs.levels[li]).order_ids.erase oid },
      order_id_to_level_map := aerase gs.order_id_to_level_map oid } := by
  obtain ⟨hPW, hnd, h5, h6, h7, h8⟩ := hC
  have hnodupli := h7 li hli
  refine ⟨hPW, akeys_aerase_nodup _ _ hnd, ?_, ?_, ?_, ?_⟩
  · intro k lj hk
    have hk' : alookup (aerase gs.order_id_to_level_map oid) k = some lj := hk
    by_cases hko : k = oid
    · subst hko
      rw [alookup_aerase_self _ _ hnd] at hk'
      exact Option.noConfusion hk'
    · rw [alookup_aerase_ne _ _ _ hko] at hk'
      have := h5 k lj hk'
      show lj < (gs.levels.set ⟨li, hli⟩ _).size
      simpa using this
  · intro k lj hlj
    have hlj2 : lj < gs.levels.size := by simpa using hlj
    show alookup (aerase gs.order_id_to_level_map oid) k = some lj
      ↔ k ∈ ((gs.levels.set ⟨li, hli⟩
        { budget := bud, quantity := qty,
          lower_bound := (gs.levels[li]).lower_bound,
          upper_bound := (gs.levels[li]).upper_bound,
          order_ids := (gs.levels[li]).order_ids.erase oid }).get
            ⟨lj, by simpa using hlj2⟩).order_ids
    rw [Array.get_eq_getElem, Array.get_set _ _ _ hlj2]
    by_cases hko : k = oid
    · subst hko
      rw [alookup_aerase_self _ _ hnd]
      by_cases hij : li = lj
      · rw [if_pos hij]
        subst hij
        constructor
        · intro hf
          exact Option.noConfusion hf
        · intro hmm
          exact absurd hmm hnodupli.not_mem_erase
      · rw [if_neg hij]
        constructor
        · intro hf
          exact Option.noConfusion hf
        · intro hmm
          have hsome := (h6 k lj hlj2).mpr hmm
          rw [hmap] at hsome
          injection hsome with hv
          exact absurd hv hij
    · rw [alookup_aerase_ne _ _ _ hko]
      by_cases hij : li = lj
      · rw [if_pos hij]
        subst hij
        simp only
        rw [List.mem_erase_of_ne hko]
        exact h6 k li hli
      · rw [if_neg hij]
        exact h6 k lj hlj2
  · intro lj hlj
    have hlj2 : lj < gs.levels.size := by simpa using hlj
    show ((gs.levels.set ⟨li, hli⟩
      { budget := bud, quantity := qty,
        lower_bound := (gs.levels[li]).lower_bound,
        upper_bound := (gs.levels[li]).upper_bound,
        order_ids := (gs.levels[li]).order_ids.erase oid }).get
          ⟨lj, by simpa using hlj2⟩).order_ids.Nodup
    rw [Array.get_eq_getElem, Array.get_set _ _ _ hlj2]
    by_cases hij : li = lj
    · rw [if_pos hij]
      exact hnodupli.erase _
    · rw [if_neg hij]
      exact h7 lj hlj2
  · intro k lj hk
    have hk' : alookup (aerase gs.order_id_to_level_map oid) k = some lj := hk
    by_cases hko : k = oid
    · subst hko
      rw [alookup_aerase_self _ _ hnd] at hk'
      exact Option.noConfusion hk'
    · rw [alookup_aerase_ne _ _ _ hko] at hk'
      exact h8 k lj hk'

/-- Appending a freshly placed order to the book, mapping its fresh id to an
existing level and appending the id to that level's id list preserves
consistency. -/
theorem consistent_add (gs : GridState) (li : ℕ) (hli : li < gs.levels.size)
    (hC : Consistent gs) (o : Order) (ho_id : o.oid = gs.port.next_id)
    (ho_h : o.fillHandler ≠ Handler.noop) (fe : List (ℕ × FilledOrder)) :
    Consistent { gs with
      port := { gs.port with
        order_book := gs.port.order_book ++ [(gs.port.next_id, o)],
        order_fill := fe,
        next_id := gs.port.next_id + 1 },
      levels := gs.levels.set ⟨li, hli⟩
        { budget := (gs.levels[li]).budget, quantity := (gs.levels[li]).quantity,
          lower_bound := (gs.levels[li]).lower_bound,
          upper_bound := (gs.levels[li]).upper_bound,
          order_ids := (gs.levels[li]).order_ids ++ [gs.port.next_id] },
      order_id_to_level_map :=
        aset gs.order_id_to_level_map gs.port.next_id li } := by
  obtain ⟨⟨⟨hbnd, hbid⟩, hfr⟩, hnd, h5, h6, h7, h8⟩ := hC
  have hmfresh : gs.port.next_id ∉ akeys gs.order_id_to_level_map := by
    intro hmem
    obtain ⟨lj, hlj⟩ := mem_akeys.mp hmem
    obtain ⟨o2, ho2, _⟩ := h8 _ _ (alookup_of_mem_nodup hnd hlj)
    exact absurd (hfr _ (alookup_mem ho2)) (by simp)
  have hbfresh : gs.port.next_id ∉ akeys gs.port.order_book := by
    intro hmem
    obtain ⟨o2, ho2⟩ := mem_akeys.mp hmem
    exact absurd (hfr _ ho2) (by simp)
  have hset : aset gs.order_id_to_level_map gs.port.next_id li
      = gs.order_id_to_level_map ++ [(gs.port.next_id, li)] :=
    aset_eq_append_of_not_mem _ _ _ hmfresh
  have hlfresh : ∀ lj, ∀ hlj : lj < gs.levels.size,
      gs.port.next_id ∉ (gs.levels[lj]).order_ids := by
    intro lj hlj hmem
    have := (h6 _ lj hlj).mpr hmem
    exact hmfresh (alookup_some_mem_akeys this)
  refine ⟨⟨⟨?_, ?_⟩, ?_⟩, ?_, ?_, ?_, ?_, ?_⟩
  · show (akeys (gs.port.order_book ++ [(gs.port.next_id, o)])).Nodup
    rw [akeys_append, akeys_cons, akeys_nil]
    rw [List.nodup_append]
    exact ⟨hbnd, List.nodup_singleton _,
      fun k hk1 hk2 => hbfresh ((List.mem_singleton.mp hk2) ▸ hk1)⟩
  · intro p hp
    rcases mem_append_single hp with hm | hm
    · exact hbid p hm
    · rw [hm]
      exact ho_id
  · intro p hp
    show p.1 < gs.port.next_id + 1
    rcases mem_append_single hp with hm | hm
    · exact Nat.lt_succ_of_lt (hfr p hm)
    · rw [hm]
      omega
  · show (akeys (aset gs.order_id_to_level_map gs.port.next_id li)).Nodup
    rw [hset, akeys_append, akeys_cons, akeys_nil, List.nodup_append]
    exact ⟨hnd, List.nodup_singleton _,
      fun k hk1 hk2 => hmfresh ((List.mem_singleton.mp hk2) ▸ hk1)⟩
  · intro k lj hk
    have hk' : alookup (aset gs.order_id_to_level_map gs.port.next_id li) k
        = some lj := hk
    by_cases hkn : k = gs.port.next_id
    · subst hkn
      rw [alookup_aset_self] at hk'
      injection hk' with hv
      show lj < (gs.levels.set ⟨li, hli⟩ _).size
      rw [← hv]
      simpa using hli
    · rw [alookup_aset_ne _ _ _ _ hkn] at hk'
      have := h5 k lj hk'
      show lj < (gs.levels.set ⟨li, hli⟩ _).size
      simpa using this
  · intro k lj hlj
    have hlj2 : lj < gs.levels.size := by simpa using hlj
    show alookup (aset gs.order_id_to_level_map gs.port.next_id li) k = some lj
      ↔ k ∈ ((gs.levels.set ⟨li, hli⟩
        { budget := (gs.levels[li]).budget, quantity := (gs.levels[li]).quantity,
          lower_bound := (gs.levels[li]).lower_bound,
          upper_bound := (gs.levels[li]).upper_bound,
          order_ids := (gs.levels[li]).order_ids ++ [gs.port.next_id] }).get
            ⟨lj, by simpa using hlj2⟩).order_ids
    rw [Array.get_eq_getElem, Array.get_set _ _ _ hlj2]
    by_cases hkn : k = gs.port.next_id
    · subst hkn
      rw [alookup_aset_self]
      by_cases hij : li = lj
      · rw [if_pos hij]
        subst hij
        simp
      · rw [if_neg hij]
        constructor
        · intro hv
          injection hv with hv2
          exact absurd hv2 hij
        · intro hmem
          exact absurd hmem (hlfresh lj hlj2)
    · rw [alookup_aset_ne _ _ _ _ hkn]
      by_cases hij : li = lj
      · rw [if_pos hij]
        subst hij
        simp only [List.mem_append, List.mem_singleton]
        constructor
        · intro hk2
          exact Or.inl ((h6 k li hli).mp hk2)
        · intro hk2
          rcases hk2 with hk2 | hk2
          · exact (h6 k li hli).mpr hk2
          · exact absurd hk2 hkn
      · rw [if_neg hij]
        exact h6 k lj hlj2
  · intro lj hlj
    have hlj2 : lj < gs.levels.size := by simpa using hlj
    show ((gs.levels.set ⟨li, hli⟩
      { budget := (gs.levels[li]).budget, quantity := (gs.levels[li]).quantity,
        lower_bound := (gs.levels[li]).lower_bound,
        upper_bound := (gs.levels[li]).upper_bound,
        order_ids := (gs.levels[li]).order_ids ++ [gs.port.next_id] }).get
          ⟨lj, by simpa using hlj2⟩).order_ids.Nodup
    rw [Array.get_eq_getElem, Array.get_set _ _ _ hlj2]
    by_cases hij : li = lj
    · rw [if_pos hij]
      subst hij
      simp only
      rw [List.nodup_append]
      exact ⟨h7 li hli, List.nodup_singleton _,
        fun k hk1 hk2 => hlfresh li hli ((List.mem_singleton.mp hk2) ▸ hk1)⟩
    · rw [if_neg hij]
      exact h7 lj hlj2
  · intro k lj hk
    have hk' : alookup (aset gs.order_id_to_level_map gs.port.next_id li) k
        = some lj := hk
    show ∃ o2, alookup (gs.port.order_book ++ [(gs.port.next_id, o)]) k = some o2
      ∧ o2.fillHandler ≠ Handler.noop
    by_cases hkn : k = gs.port.next_id
    · subst hkn
      refine ⟨o, ?_, ho_h⟩
      exact alookup_append_single_self _ _ _ hbfresh
    · rw [alookup_aset_ne _ _ _ _ hkn] at hk'
      obtain ⟨o2, ho2, hh2⟩ := h8 k lj hk'
      exact ⟨o2, by rw [alookup_append_single_ne _ _ _ _ hkn]; exact ho2, hh2⟩

theorem set_set_same {α : Type} (a : Array α) (i : ℕ) (h : i < a.size) (v w : α) :
    (a.set ⟨i, h⟩ v).set ⟨i, by simpa using h⟩ w = a.set ⟨i, h⟩ w := by
  apply Array.ext
  · simp
  · intro j h1 h2
    by_cases hij : i = j
    · subst hij
      rw [Array.getElem_set_eq _ _ _ rfl, Array.getElem_set_eq _ _ _ rfl]
    · rw [Array.get_set _ _ _ (by simpa using h1), Array.get_set _ _ _ (by simpa using h1),
        if_neg hij, if_neg hij, Array.get_set _ _ _ (by simpa using h1), if_neg hij]

/-- The buy callback preserves consistency, unmaps the filled id, and leaves
the portfolio untouched. -/
theorem buyCallback_consistent (fo : FilledOrder) (gs gs2 : GridState)
    (hC : Consistent gs) (hcb : buyCallback fo gs = some gs2) :
    Consistent gs2 ∧ alookup gs2.order_id_to_level_map fo.order.oid = none
    ∧ gs2.port = gs.port := by
  rcases hmap : alookup gs.order_id_to_level_map fo.order.oid with _ | li
  · simp only [buyCallback, hmap] at hcb
    exact Option.noConfusion hcb
  · simp only [buyCallback, hmap] at hcb
    by_cases hli : li < gs.levels.size
    · rw [dif_pos hli] at hcb
      rcases hb : fo.order.budgetAttr with _ | b
      · simp only [hb] at hcb
        exact Option.noConfusion hcb
      · simp only [hb] at hcb
        by_cases hmem : fo.order.oid ∈ (gs.levels[li]).order_ids
        · rw [if_pos hmem] at hcb
          obtain rfl := Option.some_injective _ hcb
          exact ⟨consistent_remove gs fo.order.oid li hli hC hmap _ _,
            alookup_aerase_self _ _ hC.2.1, rfl⟩
        · rw [if_neg hmem] at hcb
          exact Option.noConfusion hcb
    · rw [dif_neg hli] at hcb
      exact Option.noConfusion hcb

/-- The sell callback preserves consistency and unmaps the filled id (its
replacement limit buy enters the book, the map and the level under a fresh
id). -/
theorem sellCallback_consistent (fo : FilledOrder) (gs gs2 : GridState)
    (hC : Consistent gs) (hcb : sellCallback fo gs = some gs2) :
    Consistent gs2 ∧ alookup gs2.order_id_to_level_map fo.order.oid = none := by
  rcases hmap : alookup gs.order_id_to_level_map fo.order.oid with _ | li
  · simp only [sellCallback, hmap] at hcb
    exact Option.noConfusion hcb
  · simp only [sellCallback, hmap] at hcb
    by_cases hli : li < gs.levels.size
    · rw [dif_pos hli] at hcb
      by_cases hmem : fo.order.oid ∈ (gs.levels[li]).order_ids
      · rw [if_pos hmem] at hcb
        obtain rfl := Option.some_injective _ hcb
        have hoid_lt : fo.order.oid < gs.port.next_id := by
          obtain ⟨o2, ho2, _⟩ := hC.2.2.2.2.2 _ _ hmap
          exact hC.1.2 _ (alookup_mem ho2)
        obtain ⟨g1, hg1⟩ : ∃ g1 : GridState, g1 = { gs with
            levels := gs.levels.set ⟨li, hli⟩
              { budget := (gs.levels[li]).budget + fo.price * fo.quantity,
                quantity := (gs.levels[li]).quantity - fo.quantity,
                lower_bound := (gs.levels[li]).lower_bound,
                upper_bound := (gs.levels[li]).upper_bound,
                order_ids := (gs.levels[li]).order_ids.erase fo.order.oid },
            order_id_to_level_map :=
              aerase gs.order_id_to_level_map fo.order.oid } := ⟨_, rfl⟩
        have hg1C : Consistent g1 := by
          rw [hg1]
          exact consistent_remove gs fo.order.oid li hli hC hmap _ _
        have hli1 : li < g1.levels.size := by
          rw [hg1]
          simpa using hli
        have haddC := consistent_add g1 li hli1 hg1C
          (Order.limitBuy g1.port.next_id Handler.buyCb
            ((gs.levels[li]).budget + fo.price * fo.quantity)
            ((gs.levels[li]).lower_bound))
          rfl (by intro h; exact Handler.noConfusion h)
          g1.port.order_fill
        subst hg1
        refine ⟨consistent_of_eq _ _ ?_ ?_ ?_ ?_ haddC, ?_⟩
        · rfl
        · rfl
        · apply Array.ext
          · simp
          · intro j h1 h2
            by_cases hij : li = j
            · subst hij
              rw [Array.getElem_set_eq _ _ _ rfl, Array.getElem_set_eq _ _ _ rfl,
                Array.getElem_set_eq _ _ _ rfl]
              rfl
            · rw [Array.get_set _ _ _ (by simpa using h1), if_neg hij,
                Array.get_set _ _ _ (by simpa using h1), if_neg hij,
                Array.get_set _ _ _ (by simpa using h1), if_neg hij]
        · rfl
        · show alookup (aset (aerase gs.order_id_to_level_map fo.order.oid)
            gs.port.next_id li) fo.order.oid = none
          rw [alookup_aset_ne _ _ _ _ (by omega), alookup_aerase_self _ _ hC.2.1]
      · rw [if_neg hmem] at hcb
        exact Option.noConfusion hcb
    · rw [dif_neg hli] at hcb
      exact Option.noConfusion hcb

theorem fillCalc_next_id (price : ℚ) (order : Order) (st : PortState) :
    (fillCalc price order st).2.next_id = st.next_id := by
  cases order <;> rfl

theorem cancel_order_present (oid : ℕ) (st : PortState)
    (h : (alookup st.order_book oid).isSome) :
    cancel_order oid st = { st with order_book := aerase st.order_book oid } := by
  rw [cancel_order, if_pos h]

/-- Replacing a booked order in place by one with the same id and the same
handler (the stop-to-limit conversion) preserves consistency. -/
theorem consistent_conv (gs : GridState) (oid : ℕ) (o o2 : Order)
    (hC : Consistent gs) (hlk : alookup gs.port.order_book oid = some o)
    (hid : o2.oid = o.oid) (hh : o2.fillHandler = o.fillHandler) :
    Consistent { gs with port := { gs.port with
      order_book := aset gs.port.order_book oid o2 } } := by
  obtain ⟨⟨hBWF, hfr⟩, hnd, h5, h6, h7, h8⟩ := hC
  refine ⟨⟨BookWF_aset_conv hBWF hlk hid, ?_⟩, hnd, h5, h6, h7, ?_⟩
  · intro p hp
    rcases mem_aset hp with hm | hm
    · exact hfr p hm
    · rw [hm]
      exact hfr (oid, o) (alookup_mem hlk)
  · intro k li hk
    obtain ⟨o3, ho3, hneq⟩ := h8 k li hk
    by_cases hko : k = oid
    · subst hko
      rw [hlk] at ho3
      obtain rfl : o = o3 := by injection ho3
      refine ⟨o2, ?_, by rw [hh]; exact hneq⟩
      show alookup (aset gs.port.order_book k o2) k = some o2
      exact alookup_aset_self _ _ _
    · refine ⟨o3, ?_, hneq⟩
      show alookup (aset gs.port.order_book oid o2) k = some o3
      rw [alookup_aset_ne _ _ _ _ hko]
      exact ho3

/-- One grid-driven fill preserves consistency. -/
theorem gridFill_consistent (price : ℚ) (oid : ℕ) (order : Order)
    (gs gs2 : GridState) (hC : Consistent gs)
    (hord : alookup gs.port.order_book oid = some order)
    (hgf : gridFill price oid order gs = some gs2) : Consistent gs2 := by
  have hoid : order.oid = oid := hC.1.1.2 _ (alookup_mem hord)
  have hC1 : Consistent { gs with port := (fillCalc price order gs.port).2 } :=
    consistent_of_eq gs _ (fillCalc_book _ _ _) (fillCalc_next_id _ _ _) rfl rfl hC
  rcases hh : order.fillHandler with _ | _ | _
  · simp only [gridFill, hh, runHandler] at hgf
    rcases hcb : buyCallback (fillCalc price order gs.port).1
        { gs with port := (fillCalc price order gs.port).2 } with _ | gs3
    · rw [hcb] at hgf
      exact Option.noConfusion hgf
    · rw [hcb] at hgf
      obtain rfl := Option.some_injective _ hgf
      obtain ⟨hC3, hunm, -⟩ := buyCallback_consistent _ _ _ hC1 hcb
      refine consistent_erase_fill _ oid _ hC3 ?_
      rw [fillCalc_fst_order, hoid] at hunm
      exact hunm
  · simp only [gridFill, hh, runHandler] at hgf
    rcases hcb : sellCallback (fillCalc price order gs.port).1
        { gs with port := (fillCalc price order gs.port).2 } with _ | gs3
    · rw [hcb] at hgf
      exact Option.noConfusion hgf
    · rw [hcb] at hgf
      obtain rfl := Option.some_injective _ hgf
      obtain ⟨hC3, hunm⟩ := sellCallback_consistent _ _ _ hC1 hcb
      refine consistent_erase_fill _ oid _ hC3 ?_
      rw [fillCalc_fst_order, hoid] at hunm
      exact hunm
  · simp only [gridFill, hh, runHandler] at hgf
    obtain rfl := Option.some_injective _ hgf
    refine consistent_erase_fill _ oid _ hC1 ?_
    rcases hm2 : alookup gs.order_id_to_level_map oid with _ | li
    · rfl
    · obtain ⟨o2, ho2, hneq⟩ := hC.2.2.2.2.2 _ _ hm2
      rw [hord] at ho2
      obtain rfl : order = o2 := by injection ho2
      exact absurd hh hneq

/-- The grid-driven snapshot loop preserves consistency. -/
theorem gridStepOrders_consistent (price : ℚ) :
    ∀ (ids : List ℕ) (gs gs2 : GridState), Consistent gs →
      gridStepOrders price ids gs = some gs2 → Consistent gs2 := by
  intro ids
  induction ids with
  | nil =>
      intro gs gs2 hC h
      simp only [gridStepOrders] at h
      obtain rfl := Option.some_injective _ h
      exact hC
  | cons oid rest ih =>
      intro gs gs2 hC h
      simp only [gridStepOrders] at h
      rcases hlk : alookup gs.port.order_book oid with _ | order
      · rw [hlk] at h
        exact Option.noConfusion h
      · cases order with
        | marketBuy i hl b =>
            simp only [hlk] at h
            rcases hgf : gridFill price oid (Order.marketBuy i hl b) gs with _ | gs1
            · rw [hgf] at h
              exact Option.noConfusion h
            · rw [hgf] at h
              exact ih gs1 gs2 (gridFill_consistent price oid _ gs gs1 hC hlk hgf) h
        | marketSell i hl q =>
            simp only [hlk] at h
            rcases hgf : gridFill price oid (Order.marketSell i hl q) gs with _ | gs1
            · rw [hgf] at h
              exact Option.noConfusion h
            · rw [hgf] at h
              exact ih gs1 gs2 (gridFill_consistent price oid _ gs gs1 hC hlk hgf) h
        | limitBuy i hl b lp =>
            simp only [hlk] at h
            by_cases hp : price ≤ lp
            · rw [if_pos hp] at h
              rcases hgf : gridFill price oid (Order.limitBuy i hl b lp) gs
                  with _ | gs1
              · rw [hgf] at h
                exact Option.noConfusion h
              · rw [hgf] at h
                exact ih gs1 gs2
                  (gridFill_consistent price oid _ gs gs1 hC hlk hgf) h
            · rw [if_neg hp] at h
              exact ih gs gs2 hC h
        | limitSell i hl q lp =>
            simp only [hlk] at h
            by_cases hp : lp ≤ price
            · rw [if_pos hp] at h
              rcases hgf : gridFill price oid (Order.limitSell i hl q lp) gs
                  with _ | gs1
              · rw [hgf] at h
                exact Option.noConfusion h
              · rw [hgf] at h
                exact ih gs1 gs2
                  (gridFill_consistent price oid _ gs gs1 hC hlk hgf) h
            · rw [if_neg hp] at h
              exact ih gs gs2 hC h
        | stopBuy i hl b sp lp =>
            simp only [hlk] at h
            by_cases hp : sp ≤ price
            · rw [if_pos hp] at h
              exact ih _ gs2
                (consistent_conv gs oid _ (Order.limitBuy i hl b lp) hC hlk rfl rfl) h
            · rw [if_neg hp] at h
              exact ih gs gs2 hC h
        | stopSell i hl q sp lp =>
            simp only [hlk] at h
            by_cases hp : price ≤ sp
            · rw [if_pos hp] at h
              exact ih _ gs2
                (consistent_conv gs oid _ (Order.limitSell i hl q lp) hC hlk rfl rfl) h
            · rw [if_neg hp] at h
              exact ih gs gs2 hC h

/-- The portfolio tick under the grid strategy preserves consistency. -/
theorem gridPortStep_consistent (price : ℚ) (gs gs2 : GridState)
    (hC : Consistent gs) (h : gridPortStep price gs = some gs2) :
    Consistent gs2 := by
  rcases hso : gridStepOrders price (akeys gs.port.order_book) gs with _ | gs1
  · rw [gridPortStep, hso] at h
    exact Option.noConfusion h
  · rw [gridPortStep, hso] at h
    obtain rfl := Option.some_injective _ h
    exact consistent_of_eq _ _ rfl rfl rfl rfl
      (gridStepOrders_consistent price _ gs gs1 hC hso)

/-- The body of the rising-leaving for-loop on a sell order: cancelling the
booked order, dropping its id from the map and the level list, and placing a
replacement stop-sell under a fresh id (same handler) preserves
consistency. -/
theorem consistent_replace_sell (gs : GridState) (oid li : ℕ)
    (hli : li < gs.levels.size) (hC : Consistent gs)
    (hmem : oid ∈ (gs.levels[li]).order_ids)
    (order : Order) (hord : alookup gs.port.order_book oid = some order)
    (ub q : ℚ) :
    Consistent { gs with
      port := (place_stop_sell_order (ub + 50) ub q order.fillHandler
        (cancel_order oid gs.port)).2,
      order_id_to_level_map := aset (aerase gs.order_id_to_level_map oid)
        (place_stop_sell_order (ub + 50) ub q order.fillHandler
          (cancel_order oid gs.port)).1 li,
      levels := gs.levels.set ⟨li, hli⟩
        { gs.levels[li] with order_ids :=
            (gs.levels[li]).order_ids.erase oid
              ++ [(place_stop_sell_order (ub + 50) ub q order.fillHandler
                    (cancel_order oid gs.port)).1] } } := by
  have hmap : alookup gs.order_id_to_level_map oid = some li :=
    (hC.2.2.2.1 oid li hli).mpr hmem
  have hhand : order.fillHandler ≠ Handler.noop := by
    obtain ⟨o2, ho2, hneq⟩ := hC.2.2.2.2.2 _ _ hmap
    rw [hord] at ho2
    obtain rfl : order = o2 := by injection ho2
    exact hneq
  have hcancel : cancel_order oid gs.port
      = { gs.port with order_book := aerase gs.port.order_book oid } :=
    cancel_order_present oid gs.port (by rw [hord]; rfl)
  obtain ⟨g1, hg1⟩ : ∃ g1 : GridState, g1 = { gs with
      levels := gs.levels.set ⟨li, hli⟩
        { budget := (gs.levels[li]).budget, quantity := (gs.levels[li]).quantity,
          lower_bound := (gs.levels[li]).lower_bound,
          upper_bound := (gs.levels[li]).upper_bound,
          order_ids := (gs.levels[li]).order_ids.erase oid },
      order_id_to_level_map := aerase gs.order_id_to_level_map oid } := ⟨_, rfl⟩
  have hg1C : Consistent g1 := by
    rw [hg1]
    exact consistent_remove gs oid li hli hC hmap _ _
  have hg1map : alookup g1.order_id_to_level_map oid = none := by
    rw [hg1]
    exact alookup_aerase_self _ _ hC.2.1
  obtain ⟨g2, hg2⟩ : ∃ g2 : GridState, g2 = { g1 with port := { g1.port with
      order_book := aerase g1.port.order_book oid,
      order_fill := g1.port.order_fill } } := ⟨_, rfl⟩
  have hg2C : Consistent g2 := by
    rw [hg2]
    exact consistent_erase_fill g1 oid _ hg1C hg1map
  have hli2 : li < g2.levels.size := by
    rw [hg2, hg1]
    simpa using hli
  have haddC := consistent_add g2 li hli2 hg2C
    (Order.stopSell g2.port.next_id order.fillHandler q (ub + 50) ub)
    rfl hhand g2.port.order_fill
  subst hg2
  subst hg1
  refine consistent_of_eq _ _ ?_ ?_ ?_ ?_ haddC
  · show (place_stop_sell_order (ub + 50) ub q order.fillHandler
      (cancel_order oid gs.port)).2.order_book = _
    rw [hcancel]
    rfl
  · show (place_stop_sell_order (ub + 50) ub q order.fillHandler
      (cancel_order oid gs.port)).2.next_id = _
    rw [hcancel]
    rfl
  · show gs.levels.set ⟨li, hli⟩ _ = _
    rw [hcancel]
    apply Array.ext
    · simp
    · intro j h1 h2
      by_cases hij : li = j
      · subst hij
        rw [Array.getElem_set_eq _ _ _ rfl, Array.getElem_set_eq _ _ _ rfl,
          Array.getElem_set_eq _ _ _ rfl]
        rfl
      · rw [Array.get_set _ _ _ (by simpa using h1), if_neg hij,
          Array.get_set _ _ _ (by simpa using h1), if_neg hij,
          Array.get_set _ _ _ (by simpa using h1), if_neg hij]
  · show aset (aerase gs.order_id_to_level_map oid)
      (place_stop_sell_order (ub + 50) ub q order.fillHandler
        (cancel_order oid gs.port)).1 li = _
    rw [hcancel]
    rfl

/-- The rising-leaving for-loop preserves consistency. -/
theorem riseFor_consistent (price : ℚ) (li : ℕ) :
    ∀ (i : ℕ) (rem : ℚ) (gs : GridState) (rem2 : ℚ) (gs2 : GridState),
      Consistent gs → riseFor price li i rem gs = some (rem2, gs2) →
      Consistent gs2 := by
  intro i rem gs
  induction i, rem, gs using riseFor.induct price li
  case case1 =>
    rename_i i rem gs hli hi oid hlk
    intro rem2 gs2 hC h
    rw [riseFor.eq_def] at h
    simp only [dif_pos hli, dif_pos hi, hlk] at h
    exact Option.noConfusion h
  case case2 =>
    rename_i i rem gs hli hi oid order hlk hsell ub q hq hub port1 m1 r lvl ih
    intro rem2 gs2 hC h
    rw [riseFor.eq_def] at h
    simp only [dif_pos hli, dif_pos hi, hlk, if_pos hsell, hub, hq] at h
    rw [← hub] at h
    exact ih rem2 gs2
      (consistent_replace_sell gs oid li hli hC (List.getElem_mem hi) order hlk
        ub q) h
  case case3 =>
    rename_i i rem gs hli hi oid order hlk hsell hcontra
    intro rem2 gs2 hC h
    rw [riseFor.eq_def] at h
    simp only [dif_pos hli, dif_pos hi, hlk, if_pos hsell] at h
    exact Option.noConfusion h
  case case4 =>
    rename_i i rem gs hli hi oid order hlk hnsell ih
    intro rem2 gs2 hC h
    rw [riseFor.eq_def] at h
    simp only [dif_pos hli, dif_pos hi, hlk, if_neg hnsell] at h
    exact ih rem2 gs2 hC h
  case case5 =>
    rename_i i rem gs hli hni
    intro rem2 gs2 hC h
    rw [riseFor.eq_def] at h
    simp only [dif_pos hli, dif_neg hni] at h
    injection h with h3
    injection h3 with ha hb
    subst hb
    exact hC
  case case6 =>
    rename_i i rem gs hnli
    intro rem2 gs2 hC h
    rw [riseFor.eq_def] at h
    simp only [dif_neg hnli] at h
    exact Option.noConfusion h

/-- One iteration of the rising-leaving while-loop preserves consistency. -/
theorem riseLevel_consistent (price : ℚ) (li : ℕ) (gs gs2 : GridState)
    (hC : Consistent gs) (h : riseLevel price li gs = some gs2) :
    Consistent gs2 := by
  by_cases hli : li < gs.levels.size
  · rcases hrf : riseFor price li 0 ((gs.levels[li]).quantity) gs with _ | p
    · simp only [riseLevel, dif_pos hli, hrf] at h
      exact Option.noConfusion h
    · obtain ⟨rem1, gs1⟩ := p
      simp only [riseLevel, dif_pos hli, hrf] at h
      have hC1 : Consistent gs1 :=
        riseFor_consistent price li 0 _ gs rem1 gs1 hC hrf
      by_cases h0 : 0 < rem1
      · rw [if_pos h0] at h
        by_cases hli1 : li < gs1.levels.size
        · rw [dif_pos hli1] at h
          rcases hub : (gs1.levels[li]).upper_bound with ub | _
          · simp only [hub] at h
            rw [← hub] at h
            obtain rfl := Option.some_injective _ h
            exact consistent_of_eq _ _ rfl rfl rfl rfl
              (consistent_add gs1 li hli1 hC1
                (Order.stopSell gs1.port.next_id Handler.sellCb rem1
                  (ub + 50) ub) rfl
                (by intro hcon; exact Handler.noConfusion hcon)
                gs1.port.order_fill)
          · simp only [hub] at h
            exact Option.noConfusion h
        · rw [dif_neg hli1] at h
          exact Option.noConfusion h
      · rw [if_neg h0] at h
        obtain rfl := Option.some_injective _ h
        exact hC1
  · simp only [riseLevel, dif_neg hli] at h
    exact Option.noConfusion h

/-- The rising-leaving while-loop preserves consistency. -/
theorem riseLevels_consistent (price : ℚ) :
    ∀ (li : ℕ) (gs gs2 : GridState), Consistent gs →
      riseLevels price li gs = some gs2 → Consistent gs2 := by
  intro li
  induction li with
  | zero =>
      intro gs gs2 hC h
      simp only [riseLevels] at h
      obtain rfl := Option.some_injective _ h
      exact hC
  | succ n ih =>
      intro gs gs2 hC h
      simp only [riseLevels] at h
      rcases hrl : riseLevel price (n + 1) gs with _ | gs1
      · rw [hrl] at h
        exact Option.noConfusion h
      · rw [hrl] at h
        exact ih gs1 gs2 (riseLevel_consistent price (n + 1) gs gs1 hC hrl) h

/-- One GridStrategy.step tick preserves consistency. -/
theorem step_consistent (price : ℚ) (gs gs2 : GridState) (hC : Consistent gs)
    (h : GridState.step price gs = some gs2) : Consistent gs2 := by
  by_cases hc : gs.current < gs.levels.size
  · simp only [GridState.step, dif_pos hc] at h
    by_cases hup : ubLt (gs.levels[gs.current]).upper_bound price = true
    · rw [if_pos hup] at h
      rcases hhr : handleRisingLeaving price gs with _ | gs1
      · rw [hhr] at h
        exact Option.noConfusion h
      · rw [hhr] at h
        simp only [Option.some_bind] at h
        have hC1 : Consistent gs1 :=
          riseLevels_consistent price gs.current gs gs1 hC hhr
        rcases hav : advanceFrom gs1.levels price gs1.current with _ | c
        · rw [hav] at h
          exact Option.noConfusion h
        · rw [hav] at h
          exact gridPortStep_consistent price { gs1 with current := c } gs2
            (consistent_of_eq gs1 { gs1 with current := c } rfl rfl rfl rfl hC1) h
    · rw [if_neg hup] at h
      by_cases hdn : price < (gs.levels[gs.current]).lower_bound
      · rw [if_pos hdn] at h
        rcases hrt : retreatFrom gs.levels price gs.current with _ | c
        · rw [hrt] at h
          exact Option.noConfusion h
        · rw [hrt] at h
          exact gridPortStep_consistent price { gs with current := c } gs2
            (consistent_of_eq gs { gs with current := c } rfl rfl rfl rfl hC) h
      · rw [if_neg hdn] at h
        exact gridPortStep_consistent price gs gs2 hC h
  · simp only [GridState.step, dif_neg hc] at h
    exact Option.noConfusion h

/-- Running the grid over any tick sequence preserves consistency. -/
theorem runGrid_consistent :
    ∀ (prices : List ℚ) (gs gs2 : GridState), Consistent gs →
      runGrid prices gs = some gs2 → Consistent gs2 := by
  intro prices
  induction prices with
  | nil =>
      intro gs gs2 hC h
      obtain rfl := Option.some_injective _ h
      exact hC
  | cons p ps ih =>
      intro gs gs2 hC h
      rcases hst : GridState.step p gs with _ | gs1
      · simp only [runGrid, List.foldlM_cons, hst] at h
        exact Option.noConfusion h
      · simp only [runGrid, List.foldlM_cons, hst] at h
        exact ih gs1 gs2 (step_consistent p gs gs1 hC hst) h

/-- Closed form of the constructed id-to-level map. -/
theorem mapChain_alookup :
    ∀ (bs : List ℚ) (nid li k v : ℕ),
      (alookup (mapChain nid li bs) k = some v ↔
        ∃ j, j < bs.length ∧ k = nid + j ∧ v = li + j) := by
  intro bs
  induction bs with
  | nil =>
      intro nid li k v
      constructor
      · intro h
        exact Option.noConfusion h
      · rintro ⟨j, hj, -, -⟩
        simp at hj
  | cons hi rest ih =>
      intro nid li k v
      rw [show mapChain nid li (hi :: rest)
          = (nid, li) :: mapChain (nid + 1) (li + 1) rest from rfl, alookup_cons]
      by_cases hk : nid = k
      · subst hk
        rw [if_pos rfl]
        constructor
        · intro h
          injection h with hv
          exact ⟨0, by simp, by omega, by omega⟩
        · rintro ⟨j, hj, hkj, hvj⟩
          have hj0 : j = 0 := by omega
          subst hj0
          rw [hvj]
          exact congrArg some (by omega)
      · rw [if_neg hk, ih]
        constructor
        · rintro ⟨j, hj, hkj, hvj⟩
          simp only [List.length_cons]
          exact ⟨j + 1, by omega, by omega, by omega⟩
        · rintro ⟨j, hj, hkj, hvj⟩
          simp only [List.length_cons] at hj
          cases j with
          | zero => exact absurd (by omega) hk
          | succ j => exact ⟨j, by omega, by omega, by omega⟩

/-- The keys of the constructed map are the consecutive fresh ids. -/
theorem mapChain_akeys :
    ∀ (bs : List ℚ) (nid li : ℕ),
      akeys (mapChain nid li bs) = List.range' nid bs.length := by
  intro bs
  induction bs with
  | nil => intro nid li; rfl
  | cons hi rest ih =>
      intro nid li
      rw [show mapChain nid li (hi :: rest)
          = (nid, li) :: mapChain (nid + 1) (li + 1) rest from rfl, akeys_cons,
        ih, List.length_cons, List.range'_succ]

/-- The keys of the constructed book are the consecutive fresh ids. -/
theorem stopChain_akeys (n : ℕ) (B : ℚ) :
    ∀ (bs : List ℚ) (nid : ℕ) (lo : ℚ),
      akeys (stopChain n B nid lo bs) = List.range' nid bs.length := by
  intro bs
  induction bs with
  | nil => intro nid lo; rfl
  | cons hi rest ih =>
      intro nid lo
      rw [show stopChain n B nid lo (hi :: rest)
          = (nid, Order.stopBuy nid .buyCb (B / (n : ℚ)) (lo - 50) lo)
            :: stopChain n B (nid + 1) hi rest from rfl, akeys_cons,
        ih, List.length_cons, List.range'_succ]

/-- Every constructed stop buy embeds its key as its id and carries the buy
callback. -/
theorem stopChain_handlers (n : ℕ) (B : ℚ) :
    ∀ (bs : List ℚ) (nid : ℕ) (lo : ℚ),
      ∀ p ∈ stopChain n B nid lo bs,
        p.2.oid = p.1 ∧ p.2.fillHandler = Handler.buyCb := by
  intro bs
  induction bs with
  | nil => intro nid lo p hp; cases hp
  | cons hi rest ih =>
      intro nid lo p hp
      rcases List.mem_cons.mp hp with h | h
      · rw [h]
        exact ⟨rfl, rfl⟩
      · exact ih (nid + 1) hi p h

/-- Each finite constructed level holds exactly the id of its stop buy. -/
theorem levelChain_ids (n : ℕ) (B : ℚ) :
    ∀ (bs : List ℚ) (nid : ℕ) (lo : ℚ) (j : ℕ), j < bs.length →
      ∃ lvl, (levelChain n B nid lo bs)[j]? = some lvl
        ∧ lvl.order_ids = [nid + j] := by
  intro bs
  induction bs with
  | nil => intro nid lo j hj; simp at hj
  | cons hi rest ih =>
      intro nid lo j hj
      match j with
      | 0 =>
          exact ⟨{ budget := B / (n : ℚ)
                   quantity := 0
                   lower_bound := lo
                   upper_bound := .fin hi
                   order_ids := [nid] }, by simp [levelChain], rfl⟩
      | j + 1 =>
          obtain ⟨lvl, hl, hids⟩ := ih (nid + 1) hi j (by simpa using hj)
          refine ⟨lvl, ?_, ?_⟩
          · rw [show (levelChain n B nid lo (hi :: rest))[j + 1]?
                = (levelChain n B (nid + 1) hi rest)[j]? by simp [levelChain]]
            exact hl
          · rw [hids]
            congr 1
            omega

/-- The freshly constructed grid is consistent (from a portfolio with an
empty order book). -/
theorem constructGrid_consistent (port : PortState) (b0 : ℚ) (rest : List ℚ)
    (gs : GridState) (hbook : port.order_book = [])
    (hc : constructGrid port (b0 :: rest) = some gs) : Consistent gs := by
  obtain ⟨gs2, hcons2, hlvls, hob, hnid, _, _, _, _, _, hmap, hcur⟩ :=
    constructGrid_spec port b0 rest
  rw [hcons2] at hc
  obtain rfl : gs2 = gs := Option.some_injective _ hc
  rw [hbook, List.nil_append] at hob
  have hsize : gs2.levels.size = rest.length + 2 := by
    have hlen := congrArg List.length hlvls
    rw [Array.length_toList] at hlen
    rw [hlen]
    simp [levelChain_length]
  have hids : ∀ li : ℕ, ∀ hli : li < gs2.levels.size,
      (gs2.levels[li]).order_ids
        = if 1 ≤ li ∧ li ≤ rest.length
          then [port.next_id + (li - 1)] else [] := by
    intro li hli
    have h1 : gs2.levels[li]? = gs2.levels.toList[li]? := rfl
    rw [Array.getElem?_lt _ hli, hlvls] at h1
    cases li with
    | zero =>
        rw [List.getElem?_cons_zero] at h1
        injection h1 with h2
        rw [h2, if_neg (by omega)]
    | succ j =>
        rw [List.getElem?_cons_succ] at h1
        by_cases hj : j < rest.length
        · obtain ⟨lvl, hl, hids2⟩ :=
            levelChain_ids rest.length port.budget rest port.next_id b0 j hj
          rw [List.getElem?_append_left (by rw [levelChain_length]; exact hj),
            hl] at h1
          injection h1 with h2
          rw [h2, hids2, if_pos (by omega), show j + 1 - 1 = j from rfl]
        · have hj2 : j = rest.length := by
            rw [hsize] at hli
            omega
          subst hj2
          rw [List.getElem?_append_right (by rw [levelChain_length])] at h1
          rw [show (rest.length - (levelChain rest.length port.budget
              port.next_id b0 rest).length) = 0
                by rw [levelChain_length]; omega,
            List.getElem?_cons_zero] at h1
          injection h1 with h2
          rw [h2, if_neg (by omega)]
  refine ⟨⟨⟨?_, ?_⟩, ?_⟩, ?_, ?_, ?_, ?_, ?_⟩
  · rw [hob, stopChain_akeys]
    exact List.nodup_range' port.next_id rest.length
  · intro p hp
    rw [hob] at hp
    exact (stopChain_handlers rest.length port.budget rest port.next_id b0 p hp).1
  · intro p hp
    rw [hob] at hp
    have hk : p.1 ∈ akeys (stopChain rest.length port.budget port.next_id b0 rest) :=
      mem_akeys.mpr ⟨p.2, by rw [Prod.mk.eta]; exact hp⟩
    rw [stopChain_akeys] at hk
    rw [hnid]
    have := List.mem_range'_1.mp hk
    omega
  · rw [hmap, mapChain_akeys]
    exact List.nodup_range' port.next_id rest.length
  · intro k li hk
    rw [hmap] at hk
    obtain ⟨j, hj, -, hlij⟩ := (mapChain_alookup rest port.next_id 1 k li).mp hk
    rw [hsize]
    omega
  · intro k li hli
    rw [hmap, hids li hli, mapChain_alookup]
    by_cases hrange : 1 ≤ li ∧ li ≤ rest.length
    · rw [if_pos hrange]
      constructor
      · rintro ⟨j, hj, rfl, rfl⟩
        rw [List.mem_singleton]
        omega
      · intro hm
        rw [List.mem_singleton] at hm
        exact ⟨li - 1, by omega, by omega, by omega⟩
    · rw [if_neg hrange]
      constructor
      · rintro ⟨j, hj, rfl, rfl⟩
        exact absurd ⟨by omega, by omega⟩ hrange
      · intro hm
        exact absurd hm (List.not_mem_nil _)
  · intro li hli
    rw [hids li hli]
    by_cases hrange : 1 ≤ li ∧ li ≤ rest.length
    · rw [if_pos hrange]
      exact List.nodup_singleton _
    · rw [if_neg hrange]
      exact List.nodup_nil
  · intro k li hk
    rw [hmap] at hk
    obtain ⟨j, hj, rfl, rfl⟩ := (mapChain_alookup rest port.next_id 1 k li).mp hk
    obtain ⟨bj, hbj, hsc⟩ :=
      stopChain_get rest.length port.budget rest port.next_id b0 j hj
    refine ⟨Order.stopBuy (port.next_id + j) .buyCb
        (port.budget / ((rest.length : ℕ) : ℚ)) (bj - 50) bj, ?_,
      by intro hcon; exact Handler.noConfusion hcon⟩
    rw [hob]
    apply alookup_of_mem_nodup
    · rw [stopChain_akeys]
      exact List.nodup_range' port.next_id rest.length
    · exact List.getElem?_mem hsc

/-- C1: over every run of the grid strategy — construction over an ascending
boundary list from a portfolio with an empty book, followed by any sequence
of price ticks (whose fills drive the buy and sell callbacks and whose
boundary crossings drive the rising-leaving rebalancing) — the
order-id-to-level map and the per-level id lists stay bidirectionally
consistent: the map sends an id to a level index exactly when that id sits in
that level's order_ids list, and every mapped id is a key of the portfolio's
open-order book. -/
theorem claim_C1_consistency (port : PortState) (b0 : ℚ) (rest : List ℚ)
    (prices : List ℚ) (gs0 gs : GridState)
    (hbook : port.order_book = [])
    (hcons : constructGrid port (b0 :: rest) = some gs0)
    (hrun : runGrid prices gs0 = some gs) :
    ∀ oid li,
      (alookup gs.order_id_to_level_map oid = some li ↔
        ∃ hli : li < gs.levels.size, oid ∈ (gs.levels[li]).order_ids)
      ∧ (alookup gs.order_id_to_level_map oid = some li →
          oid ∈ akeys gs.port.order_book) := by
  have hC : Consistent gs :=
    runGrid_consistent prices gs0 gs
      (constructGrid_consistent port b0 rest gs0 hbook hcons) hrun
  intro oid li
  refine ⟨⟨?_, ?_⟩, ?_⟩
  · intro hk
    have hli := hC.2.2.1 oid li hk
    exact ⟨hli, (hC.2.2.2.1 oid li hli).mp hk⟩
  · rintro ⟨hli, hm⟩
    exact (hC.2.2.2.1 oid li hli).mpr hm
  · intro hk
    obtain ⟨o, ho, -⟩ := hC.2.2.2.2.2 oid li hk
    exact alookup_some_mem_akeys ho

theorem claim_C1_witness :
    (alookup gridEx2.order_id_to_level_map 0 = some 1 ↔
      ∃ hli : 1 < gridEx2.levels.size, 0 ∈ (gridEx2.levels[1]).order_ids)
    ∧ (alookup gridEx2.order_id_to_level_map 0 = some 1 →
        0 ∈ akeys gridEx2.port.order_book) :=
  claim_C1_consistency gridPortfolio 100 [200] [60, 60] gridEx0 gridEx2 rfl
    (by norm_num [constructGrid, buildLevels, place_stop_buy_order,
      gridPortfolio, aset, gridEx0, lvlHead, lvlMid, lvlTail])
    (by
      have h1 : GridState.step 60 gridEx0 = some gridEx1 := by
        norm_num [GridState.step, gridEx0, gridEx1, lvlHead, lvlMid, lvlTail,
          ubLt, retreatFrom, gridPortStep, gridStepOrders, akeys, alookup, aset]
      have h2 : GridState.step 60 gridEx1 = some gridEx2 := by
        norm_num [GridState.step, gridEx1, gridEx2, lvlHead, lvlMid, lvlTail,
          ubLt, retreatFrom, gridPortStep, gridStepOrders, gridFill, runHandler,
          buyCallback, fillCalc, applyFee, akeys, alookup, aerase,
          Order.fillHandler, Order.oid, Order.budgetAttr, Array.set, List.set]
      simp only [runGrid, List.foldlM_cons, List.foldlM_nil,
        Option.bind_eq_bind, h1, Option.some_bind, h2, Option.pure_def])
    0 1

end EthTrade
